import Mathlib

/-!
# Command generator (`gen/aws/generators/commands.go`)

A shallow embedding of the tag parser, the metadata extractors and the
struct scanner of the command generator, together with the properties
established about them.

Modelling conventions.

* A Go `string` is a sequence of bytes, and is modelled as the list of its
  bytes (`Str`), a byte being written as the character with that code; an
  ASCII text is thus the list of its characters, and `List.length` is
  `len`.  Slicing, indexing, splitting, searching and comparing all work
  on bytes, as they do in Go.
* A Go `map[string]T` is modelled as an association list with pairwise
  distinct keys (`GoMap T`): `GoMap.get?` is the lookup `m[k]`, and
  `GoMap.set` is the assignment `m[k] = v`.
* A run-time panic is modelled by the error side of `Except Panic`.
* The two library facilities whose behaviour the repository does not fix,
  the Unicode lower-casing of a string that is not plain ASCII and the
  (unstable) `sort.Slice`, are taken from a `GoLib` record that states
  their documented contract.
* The order in which a `range` statement enumerates a map is not fixed by
  Go; a function that ranges over a map takes the enumeration as its
  argument.
-/

set_option autoImplicit false
set_option maxRecDepth 100000

namespace Commands

/-! ## Strings -/

/-- A Go string, as the list of its bytes. -/
abbrev Str := List Char

/-- The run-time panics the generator can raise. -/
inductive Panic where
  /-- A slice expression `s[lo:hi]` with bounds out of range. -/
  | sliceBounds
  /-- An index expression `s[i]` with `i` out of range. -/
  | indexRange
  /-- The explicit `panic("malformed tag: 'k':'v'")` of `extractTags`. -/
  | malformedTag (key value : Str)
  deriving DecidableEq, Repr

deriving instance DecidableEq for Except

/-- The slice expression `s[lo:hi]` with Go's bounds check
`0 <= lo <= hi <= len(s)`; the bounds are signed as Go's `int` is. -/
def slice (s : Str) (lo hi : Int) : Except Panic Str :=
  if 0 ≤ lo ∧ lo ≤ hi ∧ hi ≤ (s.length : Int) then
    .ok ((s.drop lo.toNat).take (hi.toNat - lo.toNat))
  else
    .error .sliceBounds

/-- The index expression `s[i]` with Go's bounds check `0 <= i < len(s)`. -/
def index (s : Str) (i : Int) : Except Panic Char :=
  if 0 ≤ i then
    match s.get? i.toNat with
    | some c => .ok c
    | none => .error .indexRange
  else
    .error .indexRange

/-- The function `strings.Split(s, sep)` for a one-character separator: the
pieces of `s` between the occurrences of `sep`; always at least one piece. -/
def Split (s : Str) (sep : Char) : List Str :=
  match s with
  | [] => [[]]
  | c :: cs =>
    if c = sep then [] :: Split cs sep
    else
      match Split cs sep with
      | [] => [[c]]
      | piece :: rest => (c :: piece) :: rest

/-- The function `strings.HasPrefix(s, sub)`. -/
def HasPrefix : Str → Str → Bool
  | _, [] => true
  | [], _ :: _ => false
  | c :: cs, d :: ds => if c = d then HasPrefix cs ds else false

/-- The function `strings.Contains(s, sub)`: `sub` occurs somewhere in `s`. -/
def Contains : Str → Str → Bool
  | [], sub => HasPrefix [] sub
  | c :: cs, sub => HasPrefix (c :: cs) sub || Contains cs sub

/-- The function `unicode.ToLower` below `utf8.RuneSelf`: a capital ASCII
letter becomes the small one, any other byte is kept. -/
def lowerASCII (c : Char) : Char :=
  if 'A'.toNat ≤ c.toNat ∧ c.toNat ≤ 'Z'.toNat then Char.ofNat (c.toNat + 32) else c

/-- The function `strings.ToLower(s)`: a string of ASCII bytes is
lower-cased byte by byte; a string with a byte outside ASCII is decoded
and mapped through the Unicode case tables, which is the library function
`tbl`. -/
def ToLower (tbl : Str → Str) (s : Str) : Str :=
  if s.all (fun c => decide (c.toNat ≤ 127)) then s.map lowerASCII else tbl s

/-- The comparison `a < b` of Go strings: lexicographic order, byte by
byte. -/
def strLess : Str → Str → Bool
  | [], [] => false
  | [], _ :: _ => true
  | _ :: _, [] => false
  | a :: as, b :: bs =>
    if a.toNat < b.toNat then true
    else if b.toNat < a.toNat then false
    else strLess as bs

/-! ## Maps -/

/-- A Go map with string keys, as an association list. -/
abbrev GoMap (V : Type) := List (Str × V)

/-- The lookup `v, ok := m[k]`. -/
def GoMap.get? {V : Type} : GoMap V → Str → Option V
  | [], _ => none
  | (k', v) :: rest, k => if k' = k then some v else GoMap.get? rest k

/-- The assignment `m[k] = v`: replaces the value stored under `k`, or adds
the key when it is new. -/
def GoMap.set {V : Type} : GoMap V → Str → V → GoMap V
  | [], k, v => [(k, v)]
  | (k', v') :: rest, k, v =>
    if k' = k then (k, v) :: rest else (k', v') :: GoMap.set rest k v

/-- The keys of a map. -/
def GoMap.keys {V : Type} (m : GoMap V) : List Str :=
  m.map Prod.fst

/-! ## The tag parser -/

/-- The guard `len(v) < 2 || v[0] != '"' || v[len(v)-1] != '"'` of
`extractTags`, with Go's left-to-right short-circuit evaluation. -/
def malformed (v : Str) : Except Panic Bool :=
  if v.length < 2 then .ok true
  else do
    let first ← index v 0
    if first ≠ '"' then .ok true
    else do
      let last ← index v ((v.length : Int) - 1)
      .ok (decide (last ≠ '"'))

/-- The body of the `for _, e := range splits` loop of `extractTags`. -/
def tagStep (tags : GoMap Str) (e : Str) : Except Panic (GoMap Str) :=
  match Split e ':' with
  | key :: value :: _ => do
    if (← malformed value) then
      .error (.malformedTag key value)
    else do
      let inner ← slice value 1 ((value.length : Int) - 1)
      .ok (tags.set key inner)
  | _ => .ok tags

/-- The loop of `extractTags` over the tokens. -/
def tagLoop (tags : GoMap Str) : List Str → Except Panic (GoMap Str)
  | [] => .ok tags
  | e :: es => do
    let tags ← tagStep tags e
    tagLoop tags es

/-- The function `extractTags`. -/
def extractTags (s : Str) : Except Panic (GoMap Str) := do
  let body ← slice s 1 ((s.length : Int) - 1)
  tagLoop [] (Split body ' ')

/-! ## The metadata model -/

/-- The record `templateParam`. -/
structure templateParam where
  Name : Str
  AwsField : Str
  IsRequired : Bool
  deriving DecidableEq, Repr

/-- The record `cmdData`. -/
structure cmdData where
  Action : Str
  Entity : Str
  API : Str
  Call : Str
  Input : Str
  Output : Str
  Params : List templateParam
  HasDryRun : Bool
  GenDryRun : Bool
  deriving DecidableEq, Repr

/-! ## The metadata extractors -/

/-- The function `extractCmdData`; `tbl` is what `strings.ToLower` does to
a string that is not plain ASCII.  The result `t`
starts from the zero value, and each `if v, ok := tags[key]; ok` block
assigns its own fields only, so every field is given by its block: the
value found under the key, or the zero value when the key is absent. -/
def extractCmdData (tbl : Str → Str) (s : Str) : Except Panic cmdData := do
  let tags ← extractTags s
  .ok {
    Action := match tags.get? "action".toList with
      | some v => v
      | none => []
    Entity := match tags.get? "entity".toList with
      | some v => v
      | none => []
    API := match tags.get? "awsAPI".toList with
      | some v => v
      | none => []
    Call := match tags.get? "awsCall".toList with
      | some v => v
      | none => []
    Input := match tags.get? "awsInput".toList with
      | some v => v
      | none => []
    Output := match tags.get? "awsOutput".toList with
      | some v => v
      | none => []
    Params := []
    HasDryRun := match tags.get? "awsDryRun".toList with
      | some _ => true
      | none => false
    GenDryRun := match tags.get? "awsDryRun".toList with
      | some v => if ToLower tbl v = "manual".toList then false else true
      | none => false }

/-- The function `extractParam`; as in `extractCmdData`, every field of the
result is given by the one block that assigns it. -/
def extractParam (s : Str) : Except Panic templateParam := do
  let tags ← extractTags s
  .ok {
    Name := match tags.get? "templateName".toList with
      | some v => v
      | none => []
    AwsField := match tags.get? "awsName".toList with
      | some v => v
      | none => []
    IsRequired := match tags.get? "required".toList with
      | some _ => true
      | none => false }

/-! ## Library facilities -/

/-- The requirement that package `sort` puts on a `less` function: it is
irreflexive, transitive, and being unordered is transitive too. -/
structure StrictWeak {α : Type} (less : α → α → Bool) : Prop where
  irrefl : ∀ a, less a a = false
  trans : ∀ a b c, less a b = true → less b c = true → less a c = true
  incomp : ∀ a b c, less a b = false → less b c = false → less a c = false

/-- The library facilities the generator relies on without fixing them:
what `strings.ToLower` does to a string with a byte outside ASCII, and
`sort.Slice`,
which is not a stable sort; all that is known of its result is that it is a
rearrangement of the slice in which no element is `less` than its
predecessor, provided `less` is a valid ordering. -/
structure GoLib where
  unicodeLower : Str → Str
  sortSlice : {α : Type} → (α → α → Bool) → List α → List α
  sortSlice_perm : ∀ {α : Type} (less : α → α → Bool) (l : List α),
    (sortSlice less l).Perm l
  sortSlice_sorted : ∀ {α : Type} (less : α → α → Bool), StrictWeak less →
    ∀ l : List α, List.Chain' (fun a b => less b a = false) (sortSlice less l)

/-! ## The syntax tree, as far as the scanner looks at it -/

/-- A struct field `*ast.Field`: its `Tag` is absent (`nil`) or a literal
whose `Value` is the source text of the tag, delimiters included. -/
structure Field where
  Tag : Option Str
  deriving DecidableEq, Repr

/-- The `Type` of a type declaration: a struct type with its field list, or
any other type expression. -/
inductive TypeExpr where
  | StructType (Fields : List Field)
  | otherType
  deriving DecidableEq, Repr

/-- A syntax node `ast.Node` handed to the visitor: a type declaration
`*ast.TypeSpec` with its `Name` and `Type`, or any other node. -/
inductive Node where
  | TypeSpec (Name : Str) (Typ : TypeExpr)
  | otherNode
  deriving DecidableEq, Repr

/-- The visitor `findStructs`; `result` is `none` for the `nil` map. -/
structure findStructs where
  result : Option (GoMap cmdData)
  deriving DecidableEq, Repr

/-- The entries of the visitor's metadata collection (none for a `nil` map). -/
def findStructs.entries (v : findStructs) : GoMap cmdData :=
  match v.result with
  | some m => m
  | none => []

/-! ## The scanner -/

/-- The body of the `for _, f := range s.Fields.List` loop of `Visit`,
acting on the running command candidate `cmd` and the list `params`. -/
def fieldStep (tbl : Str → Str) (st : Option cmdData × List templateParam)
    (f : Field) : Except Panic (Option cmdData × List templateParam) :=
  match f.Tag with
  | none => .ok st
  | some tag =>
    if Contains tag "awsAPI".toList then do
      let extractedCmd ← extractCmdData tbl tag
      .ok (some extractedCmd, st.2)
    else if Contains tag "templateName".toList then do
      let p ← extractParam tag
      .ok (st.1, st.2 ++ [p])
    else .ok st

/-- The loop of `Visit` over the fields of a struct. -/
def fieldLoop (tbl : Str → Str) (st : Option cmdData × List templateParam) :
    List Field → Except Panic (Option cmdData × List templateParam)
  | [] => .ok st
  | f :: fs => do
    let st ← fieldStep tbl st f
    fieldLoop tbl st fs

/-- The `less` function that `Visit` passes to `sort.Slice`. -/
def lessByName (a b : templateParam) : Bool :=
  strLess a.Name b.Name

/-- The method `findStructs.Visit`: the visitor after the call, or the
panic raised by one of the extractors. -/
def Visit (lib : GoLib) (v : findStructs) (node : Node) : Except Panic findStructs :=
  let result : GoMap cmdData :=
    match v.result with
    | none => []
    | some m => m
  match node with
  | .TypeSpec name (.StructType fields) => do
    let (cmd, params) ← fieldLoop lib.unicodeLower (none, []) fields
    match cmd with
    | some c =>
      let c := if params.length > 0 then
          { c with Params := lib.sortSlice lessByName params }
        else c
      .ok { result := some (result.set name c) }
    | none => .ok { result := some result }
  | _ => .ok { result := some result }

/-- The visitor applied to the nodes of a traversal, in order. -/
def visitAll (lib : GoLib) (v : findStructs) : List Node → Except Panic findStructs
  | [] => .ok v
  | n :: ns => do
    let v ← Visit lib v n
    visitAll lib v ns

/-! ## The action index -/

/-- The body of the first loop of `BuildSupportedActions`:
`supportedActions[cmd.Action] = append(supportedActions[cmd.Action], cmd.Entity)`;
the lookup of an absent action gives the `nil` slice. -/
def addEntity (supportedActions : GoMap (List Str)) (cmd : cmdData) : GoMap (List Str) :=
  supportedActions.set cmd.Action
    ((match supportedActions.get? cmd.Action with
      | some entities => entities
      | none => []) ++ [cmd.Entity])

/-- The function `BuildSupportedActions`.  The argument is the collection
as `for _, cmd := range cmds` enumerates it.  The second loop sorts every
entity list in place, each list being a slice of its own, so that the order
in which it visits the actions plays no part. -/
def BuildSupportedActions (lib : GoLib) (cmds : List (Str × cmdData)) : GoMap (List Str) :=
  let supportedActions := cmds.foldl (fun m e => addEntity m e.2) []
  supportedActions.map (fun e => (e.1, lib.sortSlice strLess e.2))

/-! ## The templates -/

/-- Pieces of text written one after the other. -/
def concat : List Str → Str
  | [] => []
  | s :: ss => s ++ concat ss

/-- The text of the inner branch `{{ if $tag.GenDryRun }}` of the template
`cmdRuns`, for the entry `$cmdName`, `$tag` of the collection: the
generated `DryRun` method.  An action `{{ $tag.Input }}` prints the field
as it is; the white space before `{{- end }}` is removed. -/
def dryRunGenerated (cmdName : Str) (tag : cmdData) : Str :=
  concat
    ["\n".toList,
     "\tfunc (cmd *".toList,
     cmdName,
     ") DryRun(ctx, params map[string]interface\x7b\x7d) (interface\x7b\x7d, error) \x7b\n".toList,
     "\t\tif err := cmd.inject(params); err != nil \x7b\n".toList,
     "\t\t\treturn nil, fmt.Errorf(\"dry run: cannot set params on command struct: %s\", err)\n".toList,
     "\t\t\x7d\n".toList,
     "\n".toList,
     "\t\tinput := &".toList,
     tag.Input,
     "\x7b\x7d\n".toList,
     "\t\tinput.SetDryRun(true)\n".toList,
     "\t\tif err := structInjector(cmd, input, ctx) ; err != nil \x7b\n".toList,
     "\t\t\treturn nil, fmt.Errorf(\"dry run: cannot inject in ".toList,
     tag.Input,
     ": %s\", err)\n".toList,
     "\t\t\x7d\n".toList,
     "\n".toList,
     "\t\tstart := time.Now()\n".toList,
     "\t\t_, err := cmd.api.".toList,
     tag.Call,
     "(input);\n".toList,
     "\t\tif awsErr, ok := err.(awserr.Error); ok \x7b\n".toList,
     "\t\t\tswitch code := awsErr.Code(); \x7b\n".toList,
     "\t\t\tcase code == dryRunOperation, strings.HasSuffix(code, notFound), strings.Contains(awsErr.Message(), \"Invalid IAM Instance Profile name\"):\n".toList,
     "\t\t\t\tcmd.logger.ExtraVerbosef(\"dry run: ".toList,
     tag.API,
     ".".toList,
     tag.Call,
     " call took %s\", time.Since(start))\n".toList,
     "\t\t\t\tcmd.logger.Verbose(\"dry run: ".toList,
     tag.Action,
     " ".toList,
     tag.Entity,
     " ok\")\n".toList,
     "\t\t\t\treturn fakeDryRunId(\"".toList,
     tag.Entity,
     "\"), nil\n".toList,
     "\t\t\t\x7d\n".toList,
     "\t\t\x7d\n".toList,
     "\n".toList,
     "\t\treturn nil, fmt.Errorf(\"dry run: %s\", err) \n".toList,
     "\t\x7d".toList]

/-- The text of the branch `{{- else }}` of `{{ if $tag.HasDryRun }}` in the
template `cmdRuns`: the `DryRun` method that only returns a fake id. -/
def dryRunPlaceholder (cmdName : Str) (tag : cmdData) : Str :=
  concat
    ["\n".toList,
     "func (cmd *".toList,
     cmdName,
     ") DryRun(ctx, params map[string]interface\x7b\x7d) (interface\x7b\x7d, error) \x7b\n".toList,
     "\treturn fakeDryRunId(\"".toList,
     tag.Entity,
     "\"), nil\n".toList,
     "\x7d".toList]

/-- The part of the template `cmdRuns` from `{{ if $tag.HasDryRun }}` to its
`{{- end }}`, as `text/template` executes it for the entry `$cmdName`,
`$tag` of the collection.  The outer branch starts with the white space
that stands before `{{ if $tag.GenDryRun }}`; the inner `if` has no `else`;
the line break after the inner `{{- end }}` is removed by `{{- else }}`. -/
def cmdRunsDryRun (cmdName : Str) (tag : cmdData) : Str :=
  if tag.HasDryRun then
    concat ["\n".toList, "\t".toList] ++
      (if tag.GenDryRun then dryRunGenerated cmdName tag else [])
  else dryRunPlaceholder cmdName tag

/-- The body of `{{ range $param := $cmd.Params }}` with the test `keep`, in
the template `cmdsDefinitions`: a kept parameter adds its quoted name and a
comma to the output, another one adds nothing; the blank before `{{- end}}`
is removed. -/
def definitionParams (keep : templateParam → Bool) (params : List templateParam) : Str :=
  params.foldl
    (fun out param =>
      if keep param then out ++ concat ["\"".toList, param.Name, "\",".toList] else out) []

/-- The first lines of the body of `{{- range $, $cmd := . }}` in the table
`AWSTemplatesDefinitions` of the template `cmdsDefinitions`: the identifier
`Action` followed by `Entity`, and the fields `Action`, `Entity`, `Api`. -/
def definitionHead (cmd : cmdData) : Str :=
  concat
    ["\n".toList,
     "\t\"".toList,
     cmd.Action,
     cmd.Entity,
     "\": Definition\x7b\n".toList,
     "\t\t\tAction: \"".toList,
     cmd.Action,
     "\",\n".toList,
     "\t\t\tEntity: \"".toList,
     cmd.Entity,
     "\",\n".toList,
     "\t\t\tApi: \"".toList,
     cmd.API,
     "\",\n".toList]

/-- The body of `{{- range $, $cmd := . }}` in the table
`AWSTemplatesDefinitions` of the template `cmdsDefinitions`, as
`text/template` executes it for one command of the collection; the first
inner `range` has the test `$param.IsRequired`, the second one
`not $param.IsRequired`; the blank before each `{{- range` and the line
break before the closing `{{- end }}` are removed. -/
def cmdsDefinitionsEntry (cmd : cmdData) : Str :=
  definitionHead cmd ++
  "\t\t\tRequiredParams: []string\x7b".toList ++
  definitionParams (fun param => param.IsRequired) cmd.Params ++
  concat [" \x7d,\n".toList, "\t\t\tExtraParams: []string\x7b".toList] ++
  definitionParams (fun param => !param.IsRequired) cmd.Params ++
  concat [" \x7d,\n".toList, "\t\t\x7d,".toList]

/-! ## Notions used in the statements -/

/-- The token `k:"v"`. -/
def token (kv : Str × Str) : Str :=
  kv.1 ++ ':' :: '"' :: (kv.2 ++ ['"'])

/-- Tokens written one after the other, separated by single spaces. -/
def joinTokens : List Str → Str
  | [] => []
  | [t] => t
  | t :: t' :: ts => t ++ ' ' :: joinTokens (t' :: ts)

/-- The annotation string with opening delimiter `o`, closing delimiter
`c` and the tokens `k:"v"` of the pairs `kvs` in between. -/
def tagString (o c : Char) (kvs : List (Str × Str)) : Str :=
  o :: (joinTokens (kvs.map token) ++ [c])

/-- The text of a token before its first colon (the whole token when it
has no colon). -/
def beforeColon (t : Str) : Str :=
  t.takeWhile (fun c => decide (c ≠ ':'))

/-- The text of a token after its first colon (empty when it has no colon). -/
def afterColon (t : Str) : Str :=
  (t.dropWhile (fun c => decide (c ≠ ':'))).drop 1

/-- A value that breaks the quoting rule: shorter than two characters, or
not starting with a double quote, or not ending with one. -/
def badValue (v : Str) : Prop :=
  v.length < 2 ∨ v.head? ≠ some '"' ∨ v.getLast? ≠ some '"'

instance (v : Str) : Decidable (badValue v) := by
  unfold badValue
  exact inferInstance

/-- A string without its first and its last character. -/
def stripEnds (s : Str) : Str :=
  (s.drop 1).dropLast

/-- The effect of one token on the mapping, in words: a token without a
colon changes nothing; otherwise the text between its first and its second
colon (up to the end of the token when there is no second colon) must be
quoted, and is stored without its quotes under the text before the first
colon. -/
def storeToken (tags : GoMap Str) (t : Str) : Except Panic (GoMap Str) :=
  if ':' ∈ t then
    if badValue (beforeColon (afterColon t)) then
      .error (.malformedTag (beforeColon t) (beforeColon (afterColon t)))
    else .ok (tags.set (beforeColon t) (stripEnds (beforeColon (afterColon t))))
  else .ok tags

/-- The effect of a list of tokens, one after the other. -/
def storeTokens (tags : GoMap Str) : List Str → Except Panic (GoMap Str)
  | [] => .ok tags
  | t :: ts =>
    match storeToken tags t with
    | .ok tags' => storeTokens tags' ts
    | .error e => .error e

/-- The value `v` is the word `manual` up to letter case: letter by letter,
each character is the letter of `manual` or its capital. -/
def isManual (v : Str) : Prop :=
  List.Forall₂ (fun a l => a = l ∨ a = Char.ofNat (l.toNat - 32)) v "manual".toList

/-- A token that makes the loop body of `extractTags` panic. -/
def badToken (t : Str) : Prop :=
  ':' ∈ t ∧ badValue (beforeColon (afterColon t))

instance (t : Str) : Decidable (badToken t) := by
  unfold badToken
  exact inferInstance

/-- A reference instance of the library: strings that are not plain ASCII
are left as they are by the lower-casing, and `sort.Slice` is insertion
sort. -/
def refLib : GoLib where
  unicodeLower := id
  sortSlice := fun less l => List.insertionSort (fun a b => less b a = false) l
  sortSlice_perm := fun less l => List.perm_insertionSort (fun a b => less b a = false) l
  sortSlice_sorted := by
    intro α less hw l
    have htotal : IsTotal α (fun a b => less b a = false) := by
      constructor
      intro a b
      cases hba : less b a with
      | false => exact Or.inl rfl
      | true =>
        right
        cases hab : less a b with
        | false => rfl
        | true =>
          have := hw.trans a b a hab hba
          rw [hw.irrefl] at this
          cases this
    have htrans : IsTrans α (fun a b => less b a = false) := by
      constructor
      intro a b c hab hbc
      exact hw.incomp c b a hbc hab
    exact (List.sorted_insertionSort (fun a b => less b a = false) l).chain'

/-- The source text of a field's tag (empty for a field without tag). -/
def tagOf (f : Field) : Str :=
  match f.Tag with
  | some tag => tag
  | none => []

/-- A field carrying the command marker: its tag contains `awsAPI`. -/
def isCmdField (f : Field) : Bool :=
  match f.Tag with
  | some tag => Contains tag "awsAPI".toList
  | none => false

/-- A field carrying only the parameter marker: its tag contains
`templateName` and does not contain `awsAPI`. -/
def isParamField (f : Field) : Bool :=
  match f.Tag with
  | some tag => !Contains tag "awsAPI".toList && Contains tag "templateName".toList
  | none => false

/-- A marked field: its tag contains `awsAPI` or `templateName`. -/
def isMarked (f : Field) : Bool :=
  match f.Tag with
  | some tag => Contains tag "awsAPI".toList || Contains tag "templateName".toList
  | none => false

/-- The struct type declaration with the given name and fields. -/
def structDecl (name : Str) (fields : List Field) : Node :=
  .TypeSpec name (.StructType fields)

/-- The parameter list is non-decreasing by `Name`: in every adjacent pair
the first name equals the second or is lexicographically before it. -/
def sortedByName (ps : List templateParam) : Prop :=
  List.Chain' (fun a b => a.Name = b.Name ∨ strLess a.Name b.Name = true) ps

/-- The token `t` has a colon and the key `k` before it. -/
def hasKey (k : Str) (t : Str) : Bool :=
  decide (':' ∈ t ∧ beforeColon t = k)

/-- The name under which the visitor stores a record when it is given the
node: the name of a struct declaration that has a command field. -/
def writes (node : Node) : Option Str :=
  match node with
  | .TypeSpec name (.StructType fields) => if fields.any isCmdField then some name else none
  | _ => none

/-- Two collections are the same mapping: they bind every name alike. -/
def sameMap (v w : findStructs) : Prop :=
  ∀ k, v.entries.get? k = w.entries.get? k

/-- Two scans have the same outcome: both abort, or both end with the same
mapping. -/
def sameOutcome (r r' : Except Panic findStructs) : Prop :=
  match r, r' with
  | .ok v, .ok w => sameMap v w
  | .error _, .error _ => True
  | _, _ => False

/-- The entities of the commands with action `a`, in the order of the
enumeration. -/
def entitiesOf (a : Str) (cmds : List (Str × cmdData)) : List Str :=
  (cmds.filter (fun e => decide (e.2.Action = a))).map (fun e => e.2.Entity)

/-- A list of strings in ascending lexicographic order: in every adjacent
pair the first string equals the second or is before it. -/
def sortedStrings (l : List Str) : Prop :=
  List.Chain' (fun a b => a = b ∨ strLess a b = true) l

/-- The total length of the entity lists of an index. -/
def totalLength (m : GoMap (List Str)) : Nat :=
  (m.map (fun e => e.2.length)).sum

/-- The elements of a Go slice literal: every name between double quotes
and followed by a comma. -/
def quotedNames : List Str → Str
  | [] => []
  | name :: names => '"' :: (name ++ '"' :: ',' :: quotedNames names)

/-- A text of line breaks and tabs only. -/
def isBlank (s : Str) : Prop :=
  ∀ c ∈ s, c = '\n' ∨ c = '\t'

/-! ## Inputs of the examples -/

/-- A command record without parameters, for the examples. -/
def noParamsCmd : cmdData :=
  { Action := [], Entity := [], API := "ec2".toList, Call := [], Input := [], Output := [],
    Params := [], HasDryRun := false, GenDryRun := false }

/-- Fields of a struct with two parameter tags and no command tag. -/
def paramsOnlyFields : List Field :=
  [{ Tag := some "`templateName:\"a\"`".toList },
   { Tag := none },
   { Tag := some "`templateName:\"b\" required:\"\"`".toList }]

/-- Fields of a command struct whose parameters are named `b`, `a`, `a`. -/
def dupFields : List Field :=
  [{ Tag := some "`templateName:\"b\"`".toList },
   { Tag := some "`awsAPI:\"ec2\"`".toList },
   { Tag := some "`templateName:\"a\"`".toList },
   { Tag := some "`templateName:\"a\" required:\"\"`".toList }]

/-- The record that scanning `dupFields` gives. -/
def dupCmd : cmdData :=
  { noParamsCmd with
    Params := [{ Name := "a".toList, AwsField := [], IsRequired := false },
      { Name := "a".toList, AwsField := [], IsRequired := true },
      { Name := "b".toList, AwsField := [], IsRequired := false }] }

/-- Fields of a struct with two command tags, the first one unquoted. -/
def twoCmdFields : List Field :=
  [{ Tag := some "`awsAPI:ec2`".toList },
   { Tag := some "`awsAPI:\"ec2\"`".toList }]

/-- Fields of a command struct whose parameter tag is unquoted. -/
def badParamFields : List Field :=
  [{ Tag := some "`awsAPI:\"ec2\"`".toList },
   { Tag := some "`templateName:cidr`".toList }]

/-- Fields of a struct with two command tags and two parameter tags. -/
def lastWinsFields : List Field :=
  [{ Tag := some "`awsAPI:\"s3\" action:\"delete\"`".toList },
   { Tag := some "`templateName:\"name\" required:\"\"`".toList },
   { Tag := some "json:\"-\"".toList },
   { Tag := some "`awsAPI:\"ec2\" action:\"create\"`".toList },
   { Tag := some "`templateName:\"cidr\"`".toList }]

/-- The scenario of the specification, with the key names it uses. -/
def specScenarioFields : List Field :=
  [{ Tag := some ("`command:\"ec2\" action:\"create\" entity:\"vpc\" call:\"CreateVpc\" " ++
      "input:\"CreateVpcInput\" output:\"CreateVpcOutput\"`").toList },
   { Tag := some "`param:\"cidr\" required:\"true\" awsField:\"CidrBlock\"`".toList }]

/-- The command tag of the scenario, with the key names the generator reads. -/
def vpcCmdTag : Str :=
  ("`awsAPI:\"ec2\" action:\"create\" entity:\"vpc\" awsCall:\"CreateVpc\" " ++
    "awsInput:\"CreateVpcInput\" awsOutput:\"CreateVpcOutput\"`").toList

/-- The parameter tag of the scenario, with the key names the generator reads. -/
def vpcParamTag : Str :=
  "`templateName:\"cidr\" required:\"true\" awsName:\"CidrBlock\"`".toList

/-- The scenario with the key names the generator reads. -/
def vpcFields : List Field :=
  [{ Tag := some vpcCmdTag }, { Tag := some vpcParamTag }]

/-- The record the scenario describes, without its parameters. -/
def vpcCmd : cmdData :=
  { Action := "create".toList, Entity := "vpc".toList, API := "ec2".toList,
    Call := "CreateVpc".toList, Input := "CreateVpcInput".toList,
    Output := "CreateVpcOutput".toList, Params := [],
    HasDryRun := false, GenDryRun := false }

/-- The parameter the scenario describes. -/
def cidrParam : templateParam :=
  { Name := "cidr".toList, AwsField := "CidrBlock".toList, IsRequired := true }

/-- The record of a command tag `awsAPI:"ec2" awsDryRun:""`. -/
def dryRunCmd : cmdData :=
  { Action := [], Entity := [], API := "ec2".toList, Call := [], Input := [], Output := [],
    Params := [], HasDryRun := true, GenDryRun := true }

/-- Two declarations of the name `A` with different command tags. -/
def clashNodes : List Node :=
  [structDecl "A".toList [{ Tag := some "`awsAPI:\"ec2\"`".toList }],
   structDecl "A".toList [{ Tag := some "`awsAPI:\"s3\"`".toList }]]

/-- A command with the given action and entity, nothing else. -/
def actionCmd (action entity : String) : cmdData :=
  { Action := action.toList, Entity := entity.toList, API := [], Call := [], Input := [],
    Output := [], Params := [], HasDryRun := false, GenDryRun := false }

/-- The collection of the specification: create instance, create bucket,
delete instance. -/
def indexCmds : List (Str × cmdData) :=
  [("CreateInstance".toList, actionCmd "create" "instance"),
   ("CreateBucket".toList, actionCmd "create" "bucket"),
   ("DeleteInstance".toList, actionCmd "delete" "instance")]

/-- A command of the collection with a generated dry run. -/
def runInstances : cmdData :=
  { Action := "create".toList, Entity := "instance".toList, API := "ec2".toList,
    Call := "RunInstances".toList, Input := "ec2.RunInstancesInput".toList,
    Output := "ec2.Reservation".toList, Params := [], HasDryRun := true, GenDryRun := true }

/-- The command `createvpc` of the scenario, with an optional parameter
added after its required one. -/
def vpcWithParams : cmdData :=
  { vpcCmd with
    Params := [cidrParam, { Name := "tenancy".toList, AwsField := [], IsRequired := false }] }

/-! ## Facts about the string functions -/

theorem Split_ne_nil (s : Str) (sep : Char) : Split s sep ≠ [] := by
  cases s with
  | nil => simp [Split]
  | cons c cs =>
    unfold Split
    split
    · simp
    · split <;> simp

theorem Split_of_not_mem (s : Str) (sep : Char) (h : sep ∉ s) : Split s sep = [s] := by
  induction s with
  | nil => simp [Split]
  | cons c cs ih =>
    have hc : ¬ c = sep := fun e => h (by simp [e])
    have hcs : sep ∉ cs := fun e => h (by simp [e])
    simp [Split, hc, ih hcs]

theorem Split_append (a b : Str) (sep : Char) (h : sep ∉ a) :
    Split (a ++ sep :: b) sep = a :: Split b sep := by
  induction a with
  | nil => simp [Split]
  | cons c cs ih =>
    have hc : ¬ c = sep := fun e => h (by simp [e])
    have hcs : sep ∉ cs := fun e => h (by simp [e])
    simp [Split, hc, ih hcs]

theorem slice_strip (o c : Char) (b : Str) :
    slice (o :: (b ++ [c])) 1 (((o :: (b ++ [c])).length : Int) - 1) = .ok b := by
  have h1 : (((o :: (b ++ [c])).length : Int) - 1) = ((b.length + 1 : Nat) : Int) := by
    simp
  rw [h1]
  have h2 : (0 : Int) ≤ 1 ∧ (1 : Int) ≤ ((b.length + 1 : Nat) : Int) ∧
      ((b.length + 1 : Nat) : Int) ≤ ((o :: (b ++ [c])).length : Int) := by
    refine ⟨by decide, ?_, ?_⟩ <;> simp
  simp only [slice, h2, and_self, if_true]
  simp

theorem malformed_quoted (v : Str) : malformed ('"' :: (v ++ ['"'])) = .ok false := by
  have hlen : ¬ ('"' :: (v ++ ['"'])).length < 2 := by simp
  have hidx : (((('"' :: (v ++ ['"'])).length : Nat) : Int) - 1).toNat = v.length + 1 := by
    simp
  have hnn : (0 : Int) ≤ ((('"' :: (v ++ ['"'])).length : Nat) : Int) - 1 := by
    simp; omega
  simp only [malformed, hlen, if_false, index, hnn, if_true, hidx]
  simp [bind, Except.bind, List.getElem?_append_right]

theorem slice_quoted (v : Str) :
    slice ('"' :: (v ++ ['"'])) 1 (((('"' :: (v ++ ['"'])).length : Nat) : Int) - 1) = .ok v :=
  slice_strip '"' '"' v

theorem Split_token (kv : Str × Str) (hk : ':' ∉ kv.1) (hv : ':' ∉ kv.2) :
    Split (token kv) ':' = [kv.1, '"' :: (kv.2 ++ ['"'])] := by
  have hq : ':' ∉ '"' :: (kv.2 ++ ['"']) := by
    simp [hv]
  unfold token
  rw [Split_append _ _ _ hk, Split_of_not_mem _ _ hq]

theorem tagStep_token (tags : GoMap Str) (kv : Str × Str) (hk : ':' ∉ kv.1)
    (hv : ':' ∉ kv.2) : tagStep tags (token kv) = .ok (tags.set kv.1 kv.2) := by
  unfold tagStep
  rw [Split_token kv hk hv]
  simp only [malformed_quoted, slice_quoted, bind, Except.bind]
  simp

theorem tagLoop_tokens (kvs : List (Str × Str)) (tags : GoMap Str)
    (h : ∀ kv ∈ kvs, ':' ∉ kv.1 ∧ ':' ∉ kv.2) :
    tagLoop tags (kvs.map token) = .ok (kvs.foldl (fun m kv => m.set kv.1 kv.2) tags) := by
  induction kvs generalizing tags with
  | nil => simp [tagLoop]
  | cons kv rest ih =>
    have h1 := h kv (by simp)
    have h2 : ∀ kv' ∈ rest, ':' ∉ kv'.1 ∧ ':' ∉ kv'.2 := fun kv' hm => h kv' (by simp [hm])
    simp only [List.map_cons, tagLoop, tagStep_token tags kv h1.1 h1.2, bind, Except.bind,
      List.foldl_cons]
    exact ih _ h2

theorem space_not_mem_token (kv : Str × Str) (hk : ' ' ∉ kv.1) (hv : ' ' ∉ kv.2) :
    ' ' ∉ token kv := by
  simp [token, hk, hv]

theorem Split_joinTokens (ts : List Str) (hne : ts ≠ []) (h : ∀ t ∈ ts, ' ' ∉ t) :
    Split (joinTokens ts) ' ' = ts := by
  induction ts with
  | nil => exact absurd rfl hne
  | cons t rest ih =>
    cases rest with
    | nil => simpa [joinTokens] using Split_of_not_mem t ' ' (h t (by simp))
    | cons t' ts =>
      have ht : ' ' ∉ t := h t (by simp)
      have hrest : ∀ u ∈ t' :: ts, ' ' ∉ u := fun u hu => h u (List.mem_cons_of_mem _ hu)
      simp only [joinTokens]
      rw [Split_append _ _ _ ht, ih (by simp) hrest]

theorem GoMap.set_of_not_mem {V : Type} (m : GoMap V) (k : Str) (v : V)
    (h : k ∉ m.map Prod.fst) : m.set k v = m ++ [(k, v)] := by
  induction m with
  | nil => simp [GoMap.set]
  | cons e rest ih =>
    obtain ⟨k', v'⟩ := e
    have h1 : ¬ k' = k := fun e => h (by rw [List.map_cons, e]; exact List.mem_cons_self _ _)
    have h2 : k ∉ rest.map Prod.fst := fun e => h (by rw [List.map_cons]; exact List.mem_cons_of_mem _ e)
    simp [GoMap.set, h1, ih h2]

theorem foldl_set_distinct (kvs : List (Str × Str)) (m : GoMap Str)
    (hnd : (m.map Prod.fst ++ kvs.map Prod.fst).Nodup) :
    kvs.foldl (fun m kv => m.set kv.1 kv.2) m = m ++ kvs := by
  induction kvs generalizing m with
  | nil => simp
  | cons kv rest ih =>
    have hk : kv.1 ∉ m.map Prod.fst := by
      intro hm
      have := List.nodup_append.mp hnd
      exact this.2.2 hm (by simp)
    simp only [List.foldl_cons]
    rw [GoMap.set_of_not_mem m kv.1 kv.2 hk, ih]
    · simp
    · simpa [List.append_assoc] using hnd

theorem GoMap.get?_eq_some_iff {V : Type} (m : GoMap V)
    (hnd : (m.map Prod.fst).Nodup) (k : Str) (v : V) :
    m.get? k = some v ↔ (k, v) ∈ m := by
  induction m with
  | nil => simp [GoMap.get?]
  | cons e rest ih =>
    obtain ⟨k', v'⟩ := e
    simp only [List.map_cons, List.nodup_cons] at hnd
    by_cases hk : k' = k
    · subst hk
      simp only [GoMap.get?, if_true, List.mem_cons, Prod.mk.injEq, true_and, Option.some.injEq]
      constructor
      · intro h; exact Or.inl h.symm
      · rintro (h | h)
        · exact h.symm
        · exact absurd (List.mem_map_of_mem Prod.fst h) hnd.1
    · simp only [GoMap.get?, hk, if_false, List.mem_cons, Prod.mk.injEq]
      rw [ih hnd.2]
      constructor
      · intro h; exact Or.inr h
      · rintro (h | h)
        · exact absurd h.1.symm hk
        · exact h

theorem Split_of_mem (t : Str) (h : ':' ∈ t) :
    Split t ':' = beforeColon t :: Split (afterColon t) ':' := by
  induction t with
  | nil => simp at h
  | cons c cs ih =>
    by_cases hc : c = ':'
    · subst hc
      simp [Split, beforeColon, afterColon]
    · have hcs : ':' ∈ cs := by
        rcases List.mem_cons.mp h with h' | h'
        · exact absurd h'.symm hc
        · exact h'
      have := ih hcs
      simp only [beforeColon, afterColon] at this
      simp [Split, hc, beforeColon, afterColon, this]

theorem Split_head (t : Str) : ∃ rest, Split t ':' = beforeColon t :: rest := by
  by_cases h : ':' ∈ t
  · exact ⟨_, Split_of_mem t h⟩
  · refine ⟨[], ?_⟩
    rw [Split_of_not_mem t ':' h]
    simp only [beforeColon, List.cons.injEq, and_true]
    symm
    rw [List.takeWhile_eq_self_iff]
    intro c hc
    simp only [ne_eq, decide_eq_true_eq]
    intro e
    exact h (e ▸ hc)

theorem slice_stripEnds (s : Str) (h : 2 ≤ s.length) :
    slice s 1 ((s.length : Int) - 1) = .ok (stripEnds s) := by
  have h2 : (0 : Int) ≤ 1 ∧ (1 : Int) ≤ (s.length : Int) - 1 ∧
      (s.length : Int) - 1 ≤ (s.length : Int) := by
    refine ⟨by decide, ?_, ?_⟩ <;> omega
  simp only [slice, h2, and_self, if_true, stripEnds]
  congr 1
  rw [List.dropLast_eq_take]
  congr 1
  simp

theorem slice_short (s : Str) (h : s.length < 2) :
    slice s 1 ((s.length : Int) - 1) = .error .sliceBounds := by
  have h2 : ¬ ((0 : Int) ≤ 1 ∧ (1 : Int) ≤ (s.length : Int) - 1 ∧
      (s.length : Int) - 1 ≤ (s.length : Int)) := by
    omega
  simp only [slice, h2, if_false]

theorem malformed_eq (v : Str) : malformed v = .ok (decide (badValue v)) := by
  by_cases hlen : v.length < 2
  · simp [malformed, hlen, badValue]
  · match v, hlen with
    | a :: w, hlen =>
      have hnn : (0 : Int) ≤ (((a :: w).length : Nat) : Int) - 1 := by
        simp
      have hidx : ((((a :: w).length : Nat) : Int) - 1).toNat = (a :: w).length - 1 := by
        simp
      have hlast : (a :: w).get? ((a :: w).length - 1) = (a :: w).getLast? := by
        rw [List.getLast?_eq_getElem?, List.get?_eq_getElem?]
      have hne : (a :: w) ≠ [] := by simp
      have hsome : (a :: w).getLast? = some ((a :: w).getLast hne) :=
        List.getLast?_eq_getLast _ hne
      simp only [malformed, hlen, if_false, index, le_refl, if_true, Int.toNat_zero,
        List.get?_cons_zero, bind, Except.bind, hnn, hidx, hlast, hsome, badValue,
        List.head?_cons, false_or]
      by_cases ha : a = '"'
      · subst ha
        simp
      · simp [ha]

theorem tagStep_eq (tags : GoMap Str) (t : Str) :
    tagStep tags t =
      if ':' ∈ t then
        if badValue (beforeColon (afterColon t)) then
          .error (.malformedTag (beforeColon t) (beforeColon (afterColon t)))
        else .ok (tags.set (beforeColon t) (stripEnds (beforeColon (afterColon t))))
      else .ok tags := by
  by_cases h : ':' ∈ t
  · obtain ⟨rest, hrest⟩ := Split_head (afterColon t)
    simp only [tagStep, Split_of_mem t h, hrest, h, if_true, malformed_eq, bind, Except.bind]
    by_cases hb : badValue (beforeColon (afterColon t))
    · simp [hb]
    · have hlen : 2 ≤ (beforeColon (afterColon t)).length := by
        unfold badValue at hb
        omega
      simp [hb, slice_stripEnds _ hlen]
  · simp [tagStep, Split_of_not_mem t ':' h, h]

theorem tagStep_error_iff (tags : GoMap Str) (t : Str) :
    (∃ e, tagStep tags t = .error e) ↔ badToken t := by
  rw [tagStep_eq]
  unfold badToken
  by_cases h : ':' ∈ t <;> by_cases hb : badValue (beforeColon (afterColon t)) <;> simp [h, hb]

theorem tagStep_error_malformed (tags : GoMap Str) (t : Str) (e : Panic)
    (h : tagStep tags t = .error e) : ∃ k v, e = .malformedTag k v := by
  rw [tagStep_eq] at h
  by_cases h1 : ':' ∈ t <;> by_cases hb : badValue (beforeColon (afterColon t)) <;>
    simp [h1, hb] at h
  exact ⟨_, _, h.symm⟩

theorem tagLoop_error_iff (ts : List Str) (tags : GoMap Str) :
    (∃ e, tagLoop tags ts = .error e) ↔ ∃ t ∈ ts, badToken t := by
  induction ts generalizing tags with
  | nil => simp [tagLoop]
  | cons t rest ih =>
    simp only [tagLoop, bind, Except.bind, List.mem_cons, exists_eq_or_imp]
    rw [← tagStep_error_iff tags t]
    cases hstep : tagStep tags t with
    | error e => simp
    | ok tags' =>
      simp only [exists_false, false_or, reduceCtorEq]
      exact ih tags'

theorem tagLoop_error_malformed (ts : List Str) (tags : GoMap Str) (e : Panic)
    (h : tagLoop tags ts = .error e) : ∃ k v, e = .malformedTag k v := by
  induction ts generalizing tags with
  | nil => simp [tagLoop] at h
  | cons t rest ih =>
    simp only [tagLoop, bind, Except.bind] at h
    cases hstep : tagStep tags t with
    | error e' =>
      rw [hstep] at h
      simp only [Except.error.injEq] at h
      exact tagStep_error_malformed tags t e (h ▸ hstep)
    | ok tags' =>
      rw [hstep] at h
      exact ih tags' h

theorem extractTags_eq (s : Str) (h : 2 ≤ s.length) :
    extractTags s = tagLoop [] (Split (stripEnds s) ' ') := by
  simp [extractTags, slice_stripEnds s h, bind, Except.bind]

theorem afterColon_not_mem (t : Str) (h : t.count ':' ≤ 1) (hm : ':' ∈ t) :
    ':' ∉ afterColon t := by
  induction t with
  | nil => simp at hm
  | cons c cs ih =>
    by_cases hc : c = ':'
    · subst hc
      simp only [List.count_cons_self] at h
      have h0 : cs.count ':' = 0 := by omega
      simpa [afterColon] using List.count_eq_zero.mp h0
    · have hcs : ':' ∈ cs := by
        rcases List.mem_cons.mp hm with h' | h'
        · exact absurd h'.symm hc
        · exact h'
      have hcount : cs.count ':' ≤ 1 := by
        rw [List.count_cons_of_ne (fun e => hc e.symm)] at h
        exact h
      have := ih hcount hcs
      simpa [afterColon, hc] using this

theorem beforeColon_of_not_mem (t : Str) (h : ':' ∉ t) : beforeColon t = t := by
  unfold beforeColon
  rw [List.takeWhile_eq_self_iff]
  intro c hc
  simp only [ne_eq, decide_eq_true_eq]
  intro e
  exact h (e ▸ hc)

theorem tagLoop_eq_storeTokens (ts : List Str) (tags : GoMap Str) :
    tagLoop tags ts = storeTokens tags ts := by
  induction ts generalizing tags with
  | nil => rfl
  | cons t rest ih =>
    have hstep : tagStep tags t = storeToken tags t := tagStep_eq tags t
    simp only [tagLoop, storeTokens, bind, Except.bind, hstep]
    cases storeToken tags t with
    | error e => rfl
    | ok tags' => exact ih tags'

theorem Char.toNat_ofNat_small (n : Nat) (h : n < 55296) : (Char.ofNat n).toNat = n := by
  have hv : n.isValidChar := Or.inl h
  simp only [Char.ofNat, hv, dite_true, Char.toNat, Char.ofNatAux]
  show (UInt32.ofNat' n _).toNat = n
  simp [UInt32.ofNat', UInt32.toNat]

theorem Char.eq_of_toNat_eq (a b : Char) (h : a.toNat = b.toNat) : a = b := by
  rw [← Char.ofNat_toNat a, ← Char.ofNat_toNat b, h]

theorem lowerASCII_eq_letter (l : Char) (hl : 97 ≤ l.toNat ∧ l.toNat ≤ 122) (c : Char) :
    lowerASCII c = l ↔ (c = l ∨ c = Char.ofNat (l.toNat - 32)) := by
  have hup : (Char.ofNat (l.toNat - 32)).toNat = l.toNat - 32 :=
    Char.toNat_ofNat_small _ (by omega)
  have hA : 'A'.toNat = 65 := by decide
  have hZ : 'Z'.toNat = 90 := by decide
  unfold lowerASCII
  rw [hA, hZ]
  by_cases h2 : 65 ≤ c.toNat ∧ c.toNat ≤ 90
  · simp only [h2, and_self, if_true]
    have hlow : (Char.ofNat (c.toNat + 32)).toNat = c.toNat + 32 :=
      Char.toNat_ofNat_small _ (by omega)
    constructor
    · intro h
      right
      apply Char.eq_of_toNat_eq
      rw [hup, ← h, hlow]
      omega
    · rintro (h | h)
      · rw [h] at h2; omega
      · apply Char.eq_of_toNat_eq
        rw [hlow, h, hup]
        omega
  · simp only [h2, if_false]
    constructor
    · intro h; exact Or.inl h
    · rintro (h | h)
      · exact h
      · exfalso
        apply h2
        rw [h, hup]
        omega

theorem map_eq_iff_forall₂ {α β : Type} (f : α → β) (R : α → β → Prop) (w : List β)
    (hR : ∀ b ∈ w, ∀ a, f a = b ↔ R a b) (v : List α) :
    v.map f = w ↔ List.Forall₂ R v w := by
  induction w generalizing v with
  | nil => cases v <;> simp
  | cons b bs ih =>
    cases v with
    | nil => simp
    | cons a as =>
      have hb := hR b (by simp) a
      have hbs : ∀ b' ∈ bs, ∀ a, f a = b' ↔ R a b' := fun b' hm a' => hR b' (by simp [hm]) a'
      simp [hb, ih hbs]

theorem forall₂_exists_of_mem_left {α β : Type} {R : α → β → Prop} {l : List α}
    {r : List β} (h : List.Forall₂ R l r) {a : α} (ha : a ∈ l) : ∃ b ∈ r, R a b := by
  induction h with
  | nil => simp at ha
  | cons hab _ ih =>
    rcases List.mem_cons.mp ha with e | hm
    · subst e
      exact ⟨_, List.mem_cons_self _ _, hab⟩
    · obtain ⟨b, hb, hr⟩ := ih hm
      exact ⟨b, List.mem_cons_of_mem _ hb, hr⟩

theorem isManual_ascii (v : Str) (h : isManual v) : ∀ c ∈ v, c.toNat ≤ 127 := by
  intro c hc
  obtain ⟨l, hl, hR⟩ := forall₂_exists_of_mem_left h hc
  have hrange : ∀ l ∈ "manual".toList, 97 ≤ l.toNat ∧ l.toNat ≤ 122 := by decide
  have hl' := hrange l hl
  rcases hR with e | e
  · rw [e]; omega
  · rw [e, Char.toNat_ofNat_small _ (by omega)]; omega

theorem ToLower_eq_manual (tbl : Str → Str)
    (htbl : ∀ s : Str, (∃ c ∈ s, 127 < c.toNat) → tbl s ≠ "manual".toList) (v : Str) :
    ToLower tbl v = "manual".toList ↔ isManual v := by
  unfold ToLower
  by_cases hall : v.all (fun c => decide (c.toNat ≤ 127)) = true
  · rw [if_pos hall]
    unfold isManual
    apply map_eq_iff_forall₂
    intro l hl a
    apply lowerASCII_eq_letter
    revert l
    decide
  · rw [if_neg hall]
    have hex : ∃ c ∈ v, 127 < c.toNat := by
      by_contra hno
      apply hall
      rw [List.all_eq_true]
      intro c hc
      have : ¬ 127 < c.toNat := fun h => hno ⟨c, hc, h⟩
      simp only [decide_eq_true_eq]
      omega
    constructor
    · intro h
      exact absurd h (htbl v hex)
    · intro h
      obtain ⟨c, hc, hlt⟩ := hex
      have := isManual_ascii v h c hc
      omega

/-! ## The tag parser on well-formed annotation strings -/

/-- The parser run on the tokens `k:"v"` of pairs with clean keys and values
stores the pairs one after the other. -/
theorem extractTags_tagString_fold (o c : Char) (kvs : List (Str × Str))
    (hclean : ∀ kv ∈ kvs, ' ' ∉ kv.1 ∧ ':' ∉ kv.1 ∧ ' ' ∉ kv.2 ∧ ':' ∉ kv.2) :
    extractTags (tagString o c kvs) = .ok (kvs.foldl (fun m kv => m.set kv.1 kv.2) []) := by
  unfold extractTags tagString
  rw [slice_strip]
  simp only [bind, Except.bind]
  cases kvs with
  | nil => rfl
  | cons kv rest =>
    rw [Split_joinTokens _ (by simp)]
    · exact tagLoop_tokens _ _ (fun kv' h => ⟨(hclean kv' h).2.1, (hclean kv' h).2.2.2⟩)
    · intro t ht
      obtain ⟨kv', hm, rfl⟩ := List.mem_map.mp ht
      exact space_not_mem_token kv' (hclean kv' hm).1 (hclean kv' hm).2.2.1

/-- Claim C1.  For an annotation string made of an opening delimiter, the
tokens `k:"v"` of pairs `kvs` separated by single spaces and a closing
delimiter, with pairwise distinct keys and no space or colon in any key or
value, `extractTags` returns exactly the mapping of the pairs: a key `k`
is bound to `v` if and only if `(k, v)` is one of the pairs, the values
being stored without their wrapping quotes. -/
theorem extractTags_wellformed (o c : Char) (kvs : List (Str × Str))
    (hkeys : (kvs.map Prod.fst).Nodup)
    (hclean : ∀ kv ∈ kvs, ' ' ∉ kv.1 ∧ ':' ∉ kv.1 ∧ ' ' ∉ kv.2 ∧ ':' ∉ kv.2) :
    extractTags (tagString o c kvs) = .ok kvs ∧
      ∀ k v, GoMap.get? kvs k = some v ↔ (k, v) ∈ kvs := by
  refine ⟨?_, fun k v => GoMap.get?_eq_some_iff kvs hkeys k v⟩
  rw [extractTags_tagString_fold o c kvs hclean, foldl_set_distinct kvs [] (by simpa using hkeys)]
  simp

/-- Witness for C1: the annotation with tokens `key1:"v1"` and `key2:"v2"`
parses to the mapping of `key1` to `v1` and `key2` to `v2`. -/
theorem extractTags_wellformed_witness :
    extractTags "`key1:\"v1\" key2:\"v2\"`".toList =
        .ok [("key1".toList, "v1".toList), ("key2".toList, "v2".toList)] ∧
      GoMap.get? [("key1".toList, "v1".toList), ("key2".toList, "v2".toList)] "key1".toList
        = some "v1".toList ∧
      GoMap.get? [("key1".toList, "v1".toList), ("key2".toList, "v2".toList)] "other".toList
        = none :=
  ⟨(extractTags_wellformed (Char.ofNat 96) (Char.ofNat 96) [("key1".toList, "v1".toList), ("key2".toList, "v2".toList)]
      (by decide) (by decide)).1, by decide, by decide⟩

/-! ## Failure of the tag parser -/

/-- Claim C2.  For an annotation string of length at least two whose
space-separated tokens each contain at most one colon, `extractTags` aborts
with the malformed-tag panic if and only if some token containing a colon
has a value (the text after the colon) that is shorter than two characters,
does not start with a double quote, or does not end with one; and it has
no other way to fail. -/
theorem extractTags_fails_iff (s : Str) (hlen : 2 ≤ s.length)
    (hcolon : ∀ t ∈ Split (stripEnds s) ' ', t.count ':' ≤ 1) :
    ((∃ k v, extractTags s = .error (.malformedTag k v)) ↔
        ∃ t ∈ Split (stripEnds s) ' ', ':' ∈ t ∧ badValue (afterColon t)) ∧
      ((∃ e, extractTags s = .error e) ↔
        ∃ k v, extractTags s = .error (.malformedTag k v)) := by
  have hall : (∃ e, extractTags s = .error e) ↔
      ∃ k v, extractTags s = .error (.malformedTag k v) := by
    constructor
    · rintro ⟨e, he⟩
      have he' := he
      rw [extractTags_eq s hlen] at he'
      obtain ⟨k, v, rfl⟩ := tagLoop_error_malformed _ _ e he'
      exact ⟨k, v, he⟩
    · rintro ⟨k, v, h⟩
      exact ⟨_, h⟩
  refine ⟨?_, hall⟩
  rw [← hall, extractTags_eq s hlen, tagLoop_error_iff]
  constructor
  · rintro ⟨t, ht, hm, hb⟩
    refine ⟨t, ht, hm, ?_⟩
    rwa [beforeColon_of_not_mem _ (afterColon_not_mem t (hcolon t ht) hm)] at hb
  · rintro ⟨t, ht, hm, hb⟩
    refine ⟨t, ht, hm, ?_⟩
    rwa [beforeColon_of_not_mem _ (afterColon_not_mem t (hcolon t ht) hm)]

/-- Witness for C2: the empty value of `key:` and the lone quote of `key:"`
both make the parser abort with the malformed-tag panic. -/
theorem extractTags_fails_iff_witness :
    (∃ k v, extractTags "`key:`".toList = .error (.malformedTag k v)) ∧
      (∃ k v, extractTags "`a:\"1\" key:\"`".toList = .error (.malformedTag k v)) :=
  ⟨((extractTags_fails_iff "`key:`".toList (by decide) (by decide)).1).mpr
      ⟨"key:".toList, by decide, by decide, by decide⟩,
    ((extractTags_fails_iff "`a:\"1\" key:\"`".toList (by decide) (by decide)).1).mpr
      ⟨"key:\"".toList, by decide, by decide, by decide⟩⟩

/-! ## Tokens with several colons -/

/-- Counterexample to C3: the token `url:"http://x"` is not accepted; the
parser aborts, having checked only the text `"http` between the first and
the second colon. -/
theorem extractTags_url_rejected :
    extractTags "`url:\"http://x\"`".toList
        = .error (.malformedTag "url".toList "\"http".toList) ∧
      ¬ ∃ tags, extractTags "`url:\"http://x\"`".toList = .ok tags ∧
          tags.get? "url".toList = some "http://x".toList := by
  have herr : extractTags "`url:\"http://x\"`".toList
      = .error (.malformedTag "url".toList "\"http".toList) := by decide
  refine ⟨herr, ?_⟩
  rintro ⟨tags, h, _⟩
  rw [herr] at h
  cases h

/-- Claim C3, amended.  `extractTags` splits each token on every colon and
looks at the first two pieces only: for every annotation string of length
at least two, the result is that of going through the space-separated
tokens in order, skipping those without a colon and otherwise checking and
storing the text between the first and the second colon of the token (the
whole rest of the token only when it has no further colon). -/
theorem extractTags_eq_storeTokens (s : Str) (hlen : 2 ≤ s.length) :
    extractTags s = storeTokens [] (Split (stripEnds s) ' ') := by
  rw [extractTags_eq s hlen, tagLoop_eq_storeTokens]

/-- Witness for C3 amended: in `a:"x":"y"` only the piece `"x"` between the
first two colons is stored. -/
theorem extractTags_eq_storeTokens_witness :
    storeTokens [] (Split (stripEnds "`a:\"x\":\"y\"`".toList) ' ')
      = .ok [("a".toList, "x".toList)] :=
  (extractTags_eq_storeTokens "`a:\"x\":\"y\"`".toList (by decide)).symm.trans (by decide)

/-! ## The command extractor -/

theorem extractCmdData_eq (tbl : Str → Str) (s : Str) (tags : GoMap Str)
    (h : extractTags s = .ok tags) :
    extractCmdData tbl s = .ok {
      Action := (tags.get? "action".toList).getD []
      Entity := (tags.get? "entity".toList).getD []
      API := (tags.get? "awsAPI".toList).getD []
      Call := (tags.get? "awsCall".toList).getD []
      Input := (tags.get? "awsInput".toList).getD []
      Output := (tags.get? "awsOutput".toList).getD []
      Params := []
      HasDryRun := (tags.get? "awsDryRun".toList).isSome
      GenDryRun := match tags.get? "awsDryRun".toList with
        | some v => decide (ToLower tbl v ≠ "manual".toList)
        | none => false } := by
  simp only [extractCmdData, h, bind, Except.bind]
  congr 2
  · cases tags.get? "action".toList <;> rfl
  · cases tags.get? "entity".toList <;> rfl
  · cases tags.get? "awsAPI".toList <;> rfl
  · cases tags.get? "awsCall".toList <;> rfl
  · cases tags.get? "awsInput".toList <;> rfl
  · cases tags.get? "awsOutput".toList <;> rfl
  · cases tags.get? "awsDryRun".toList <;> rfl
  · cases tags.get? "awsDryRun".toList with
    | none => rfl
    | some v => by_cases hm : ToLower tbl v = "manual".toList <;> simp [hm]

theorem extractParam_eq (s : Str) (tags : GoMap Str) (h : extractTags s = .ok tags) :
    extractParam s = .ok {
      Name := (tags.get? "templateName".toList).getD []
      AwsField := (tags.get? "awsName".toList).getD []
      IsRequired := (tags.get? "required".toList).isSome } := by
  simp only [extractParam, h, bind, Except.bind]
  congr 2
  · cases tags.get? "templateName".toList <;> rfl
  · cases tags.get? "awsName".toList <;> rfl
  · cases tags.get? "required".toList <;> rfl

theorem id_avoids_manual :
    ∀ s : Str, (∃ c ∈ s, 127 < c.toNat) → id s ≠ "manual".toList := by
  rintro s ⟨c, hc, hlt⟩ e
  have hle : ∀ l ∈ "manual".toList, l.toNat ≤ 127 := by decide
  have e' : s = "manual".toList := e
  rw [e'] at hc
  exact absurd (hle c hc) (by omega)

/-- Claim C4.  For a tag string that `extractTags` accepts (the library
never lower-casing a string with a byte outside ASCII to `manual`):
without an `awsDryRun` key, `extractCmdData` returns `HasDryRun = false`
and `GenDryRun = false`; with an `awsDryRun` value equal to `manual` up to
letter case, `HasDryRun = true` and `GenDryRun = false`; with any other
`awsDryRun` value, the empty one included, both are `true`. -/
theorem extractCmdData_dryRun (tbl : Str → Str)
    (htbl : ∀ s : Str, (∃ c ∈ s, 127 < c.toNat) → tbl s ≠ "manual".toList)
    (s : Str) (tags : GoMap Str) (h : extractTags s = .ok tags) :
    ∃ t, extractCmdData tbl s = .ok t ∧
      (tags.get? "awsDryRun".toList = none → t.HasDryRun = false ∧ t.GenDryRun = false) ∧
      (∀ v, tags.get? "awsDryRun".toList = some v → isManual v →
        t.HasDryRun = true ∧ t.GenDryRun = false) ∧
      (∀ v, tags.get? "awsDryRun".toList = some v → ¬ isManual v →
        t.HasDryRun = true ∧ t.GenDryRun = true) := by
  refine ⟨_, extractCmdData_eq tbl s tags h, ?_, ?_, ?_⟩
  · intro hnone
    refine ⟨?_, ?_⟩ <;> (dsimp only; rw [hnone]; try rfl)
  · intro v hv hman
    have he : ToLower tbl v = "manual".toList := (ToLower_eq_manual tbl htbl v).mpr hman
    refine ⟨?_, ?_⟩ <;> dsimp only <;> rw [hv]
    · rfl
    · simp only [he, ne_eq, not_true_eq_false, decide_False]
  · intro v hv hman
    have hne : ¬ ToLower tbl v = "manual".toList :=
      fun e => hman ((ToLower_eq_manual tbl htbl v).mp e)
    refine ⟨?_, ?_⟩ <;> dsimp only <;> rw [hv]
    · rfl
    · simp only [ne_eq, hne, not_false_eq_true, decide_True]

/-- Witness for C4: absent marker, `MANUAL`, the empty value and `yes`. -/
theorem extractCmdData_dryRun_witness :
    (∃ t, extractCmdData id "`awsAPI:\"ec2\"`".toList = .ok t ∧
        t.HasDryRun = false ∧ t.GenDryRun = false) ∧
      (∃ t, extractCmdData id "`awsDryRun:\"MANUAL\"`".toList = .ok t ∧
        t.HasDryRun = true ∧ t.GenDryRun = false) ∧
      (∃ t, extractCmdData id "`awsDryRun:\"\"`".toList = .ok t ∧
        t.HasDryRun = true ∧ t.GenDryRun = true) ∧
      (∃ t, extractCmdData id "`awsDryRun:\"yes\"`".toList = .ok t ∧
        t.HasDryRun = true ∧ t.GenDryRun = true) := by
  refine ⟨?_, ?_, ?_, ?_⟩
  · obtain ⟨t, ht, h1, _, _⟩ := extractCmdData_dryRun id id_avoids_manual
      "`awsAPI:\"ec2\"`".toList [("awsAPI".toList, "ec2".toList)] (by decide)
    exact ⟨t, ht, h1 (by decide)⟩
  · obtain ⟨t, ht, _, h2, _⟩ := extractCmdData_dryRun id id_avoids_manual
      "`awsDryRun:\"MANUAL\"`".toList [("awsDryRun".toList, "MANUAL".toList)] (by decide)
    exact ⟨t, ht, h2 "MANUAL".toList (by decide)
      ((ToLower_eq_manual id id_avoids_manual _).mp (by decide))⟩
  · obtain ⟨t, ht, _, _, h3⟩ := extractCmdData_dryRun id id_avoids_manual
      "`awsDryRun:\"\"`".toList [("awsDryRun".toList, [])] (by decide)
    exact ⟨t, ht, h3 [] (by decide)
      (fun hm => absurd ((ToLower_eq_manual id id_avoids_manual _).mpr hm) (by decide))⟩
  · obtain ⟨t, ht, _, _, h3⟩ := extractCmdData_dryRun id id_avoids_manual
      "`awsDryRun:\"yes\"`".toList [("awsDryRun".toList, "yes".toList)] (by decide)
    exact ⟨t, ht, h3 "yes".toList (by decide)
      (fun hm => absurd ((ToLower_eq_manual id id_avoids_manual _).mpr hm) (by decide))⟩

/-- Claim C5.  For a tag string that `extractTags` accepts, `extractCmdData`
returns a record whose `Action`, `Entity`, `API`, `Call`, `Input` and
`Output` are the values stored under `action`, `entity`, `awsAPI`,
`awsCall`, `awsInput` and `awsOutput` (the empty string for an absent key)
and whose `Params` is empty; two accepted tag strings that agree on these
six keys give the same six fields, whatever their other keys. -/
theorem extractCmdData_fields (tbl : Str → Str) (s : Str) (tags : GoMap Str)
    (h : extractTags s = .ok tags) :
    ∃ t, extractCmdData tbl s = .ok t ∧
      t.Action = (tags.get? "action".toList).getD [] ∧
      t.Entity = (tags.get? "entity".toList).getD [] ∧
      t.API = (tags.get? "awsAPI".toList).getD [] ∧
      t.Call = (tags.get? "awsCall".toList).getD [] ∧
      t.Input = (tags.get? "awsInput".toList).getD [] ∧
      t.Output = (tags.get? "awsOutput".toList).getD [] ∧
      t.Params = [] ∧
      ∀ (s' : Str) (tags' : GoMap Str), extractTags s' = .ok tags' →
        tags'.get? "action".toList = tags.get? "action".toList →
        tags'.get? "entity".toList = tags.get? "entity".toList →
        tags'.get? "awsAPI".toList = tags.get? "awsAPI".toList →
        tags'.get? "awsCall".toList = tags.get? "awsCall".toList →
        tags'.get? "awsInput".toList = tags.get? "awsInput".toList →
        tags'.get? "awsOutput".toList = tags.get? "awsOutput".toList →
        ∃ t', extractCmdData tbl s' = .ok t' ∧ t'.Action = t.Action ∧
          t'.Entity = t.Entity ∧ t'.API = t.API ∧ t'.Call = t.Call ∧
          t'.Input = t.Input ∧ t'.Output = t.Output := by
  refine ⟨_, extractCmdData_eq tbl s tags h, rfl, rfl, rfl, rfl, rfl, rfl, rfl, ?_⟩
  intro s' tags' h' e1 e2 e3 e4 e5 e6
  refine ⟨_, extractCmdData_eq tbl s' tags' h', ?_⟩
  simp only [e1, e2, e3, e4, e5, e6, and_self]

/-- Witness for C5: a command tag with all six keys, and one with none. -/
theorem extractCmdData_fields_witness :
    (∃ t, extractCmdData id
        "`awsAPI:\"ec2\" action:\"create\" entity:\"vpc\" awsCall:\"CreateVpc\" x:\"y\"`".toList
          = .ok t ∧
        t.Action = "create".toList ∧ t.Entity = "vpc".toList ∧ t.API = "ec2".toList ∧
        t.Call = "CreateVpc".toList ∧ t.Input = [] ∧ t.Output = [] ∧ t.Params = []) := by
  obtain ⟨t, ht, h1, h2, h3, h4, h5, h6, h7, _⟩ := extractCmdData_fields id
    "`awsAPI:\"ec2\" action:\"create\" entity:\"vpc\" awsCall:\"CreateVpc\" x:\"y\"`".toList
    [("awsAPI".toList, "ec2".toList), ("action".toList, "create".toList),
      ("entity".toList, "vpc".toList), ("awsCall".toList, "CreateVpc".toList),
      ("x".toList, "y".toList)] (by decide)
  exact ⟨t, ht, h1, h2, h3, h4, h5, h6, h7⟩

/-! ## The parameter extractor -/

/-- Claim C6.  For a tag string that `extractTags` accepts, `extractParam`
returns `Name` as the value of `templateName` and `AwsField` as the value
of `awsName` (empty when absent), and `IsRequired = true` if and only if a
key `required` is present, whatever its value. -/
theorem extractParam_fields (s : Str) (tags : GoMap Str) (h : extractTags s = .ok tags) :
    ∃ p, extractParam s = .ok p ∧
      p.Name = (tags.get? "templateName".toList).getD [] ∧
      p.AwsField = (tags.get? "awsName".toList).getD [] ∧
      (p.IsRequired = true ↔ ∃ v, tags.get? "required".toList = some v) := by
  refine ⟨_, extractParam_eq s tags h, rfl, rfl, ?_⟩
  cases tags.get? "required".toList <;> simp

/-- Witness for C6: `required:""`, `required:"true"` and `required:"false"`
all give `IsRequired = true`. -/
theorem extractParam_fields_witness :
    (∃ p, extractParam "`templateName:\"cidr\" required:\"\"`".toList = .ok p ∧
        p.Name = "cidr".toList ∧ p.AwsField = [] ∧ p.IsRequired = true) ∧
      (∃ p, extractParam "`required:\"true\" awsName:\"CidrBlock\"`".toList = .ok p ∧
        p.Name = [] ∧ p.AwsField = "CidrBlock".toList ∧ p.IsRequired = true) ∧
      (∃ p, extractParam "`required:\"false\"`".toList = .ok p ∧ p.IsRequired = true) := by
  refine ⟨?_, ?_, ?_⟩
  · obtain ⟨p, hp, h1, h2, h3⟩ := extractParam_fields
      "`templateName:\"cidr\" required:\"\"`".toList
      [("templateName".toList, "cidr".toList), ("required".toList, [])] (by decide)
    exact ⟨p, hp, h1, h2, h3.mpr ⟨[], by decide⟩⟩
  · obtain ⟨p, hp, h1, h2, h3⟩ := extractParam_fields
      "`required:\"true\" awsName:\"CidrBlock\"`".toList
      [("required".toList, "true".toList), ("awsName".toList, "CidrBlock".toList)] (by decide)
    exact ⟨p, hp, h1, h2, h3.mpr ⟨"true".toList, by decide⟩⟩
  · obtain ⟨p, hp, _, _, h3⟩ := extractParam_fields
      "`required:\"false\"`".toList [("required".toList, "false".toList)] (by decide)
    exact ⟨p, hp, h3.mpr ⟨"false".toList, by decide⟩⟩

/-! ## The order on names -/

theorem strLess_irrefl (a : Str) : strLess a a = false := by
  induction a with
  | nil => rfl
  | cons c cs ih => simp [strLess, ih]

theorem strLess_trans (a b c : Str) (h1 : strLess a b = true) (h2 : strLess b c = true) :
    strLess a c = true := by
  induction a generalizing b c with
  | nil =>
    cases b with
    | nil => simp [strLess] at h1
    | cons y ys =>
      cases c with
      | nil => simp [strLess] at h2
      | cons z zs => simp [strLess]
  | cons x xs ih =>
    cases b with
    | nil => simp [strLess] at h1
    | cons y ys =>
      cases c with
      | nil => simp [strLess] at h2
      | cons z zs =>
        simp only [strLess] at h1 h2 ⊢
        by_cases hxy : x.toNat < y.toNat
        · by_cases hyz : y.toNat < z.toNat
          · have : x.toNat < z.toNat := by omega
            simp [this]
          · by_cases hzy : z.toNat < y.toNat
            · simp [hyz, hzy] at h2
            · have : x.toNat < z.toNat := by omega
              simp [this]
        · by_cases hyx : y.toNat < x.toNat
          · simp [hxy, hyx] at h1
          · simp only [hxy, hyx, if_false] at h1
            by_cases hyz : y.toNat < z.toNat
            · have : x.toNat < z.toNat := by omega
              simp [this]
            · by_cases hzy : z.toNat < y.toNat
              · simp [hyz, hzy] at h2
              · simp only [hyz, hzy, if_false] at h2
                have h3 : ¬ x.toNat < z.toNat := by omega
                have h4 : ¬ z.toNat < x.toNat := by omega
                simp only [h3, h4, if_false]
                exact ih ys zs h1 h2

theorem strLess_total (a b : Str) : strLess b a = false ↔ (a = b ∨ strLess a b = true) := by
  induction a generalizing b with
  | nil =>
    cases b with
    | nil => simp [strLess]
    | cons y ys => simp [strLess]
  | cons x xs ih =>
    cases b with
    | nil => simp [strLess]
    | cons y ys =>
      simp only [strLess, List.cons.injEq]
      by_cases hxy : x.toNat < y.toNat
      · have hyx : ¬ y.toNat < x.toNat := by omega
        simp [hxy, hyx]
      · by_cases hyx : y.toNat < x.toNat
        · have hne : ¬ x = y := fun e => by rw [e] at hyx; omega
          simp [hxy, hyx, hne]
        · have heq : x = y := Char.eq_of_toNat_eq x y (by omega)
          subst heq
          simp only [hxy, if_false, true_and]
          exact ih ys

theorem strLess_asymm (a b : Str) (h : strLess a b = true) : strLess b a = false := by
  cases hba : strLess b a with
  | false => rfl
  | true =>
    have := strLess_trans a b a h hba
    rw [strLess_irrefl] at this
    cases this

theorem strLess_incomp (a b c : Str) (h1 : strLess a b = false) (h2 : strLess b c = false) :
    strLess a c = false := by
  rcases (strLess_total b a).mp h1 with e1 | l1
  · rw [← e1]; exact h2
  · rcases (strLess_total c b).mp h2 with e2 | l2
    · rw [e2]; exact h1
    · exact strLess_asymm c a (strLess_trans c b a l2 l1)

theorem lessByName_strictWeak : StrictWeak lessByName where
  irrefl a := strLess_irrefl a.Name
  trans a b c := strLess_trans a.Name b.Name c.Name
  incomp a b c := strLess_incomp a.Name b.Name c.Name

/-! ## Facts about the field loop -/

theorem isParamField_of_isCmdField (f : Field) (h : isCmdField f = true) :
    isParamField f = false := by
  unfold isCmdField at h
  unfold isParamField
  cases hT : f.Tag with
  | none => rfl
  | some tag =>
    rw [hT] at h
    simp only at h
    simp only [h, Bool.not_true, Bool.false_and]

theorem fieldStep_eq (tbl : Str → Str) (st : Option cmdData × List templateParam) (f : Field) :
    fieldStep tbl st f =
      if isCmdField f then
        match extractCmdData tbl (tagOf f) with
        | .ok c => .ok (some c, st.2)
        | .error e => .error e
      else if isParamField f then
        match extractParam (tagOf f) with
        | .ok p => .ok (st.1, st.2 ++ [p])
        | .error e => .error e
      else .ok st := by
  unfold fieldStep isCmdField isParamField tagOf
  cases hT : f.Tag with
  | none => simp
  | some tag =>
    simp only [bind, Except.bind]
    cases Contains tag "awsAPI".toList <;> cases Contains tag "templateName".toList <;>
      simp only [if_true, if_false, Bool.false_eq_true, Bool.not_false, Bool.not_true,
        Bool.true_and, Bool.and_self, Bool.false_and, Bool.and_false]
    · cases extractParam tag <;> rfl
    · cases extractCmdData tbl tag <;> rfl
    · cases extractCmdData tbl tag <;> rfl

/-- The outcome of the field loop when every marked field is accepted. -/
theorem fieldLoop_of_forall₂ (tbl : Str → Str) (fields : List Field)
    (st : Option cmdData × List templateParam) (cs : List cmdData) (ps : List templateParam)
    (hcs : List.Forall₂ (fun f c => extractCmdData tbl (tagOf f) = .ok c)
      (fields.filter isCmdField) cs)
    (hps : List.Forall₂ (fun f p => extractParam (tagOf f) = .ok p)
      (fields.filter isParamField) ps) :
    fieldLoop tbl st fields =
      .ok ((match cs.getLast? with
            | some c => some c
            | none => st.1), st.2 ++ ps) := by
  induction fields generalizing st cs ps with
  | nil =>
    simp only [List.filter_nil, List.forall₂_nil_left_iff] at hcs hps
    subst hcs hps
    simp [fieldLoop]
  | cons f rest ih =>
    simp only [fieldLoop, fieldStep_eq, bind, Except.bind]
    by_cases h1 : isCmdField f = true
    · have hnp : isParamField f = false := isParamField_of_isCmdField f h1
      simp only [List.filter_cons, h1, hnp, if_true, Bool.false_eq_true, if_false] at hcs hps
      obtain ⟨c, cs', hc, hcs', rfl⟩ := List.forall₂_cons_left_iff.mp hcs
      simp only [h1, if_true, hc]
      rw [ih (some c, st.2) cs' ps hcs' hps]
      cases hl : cs'.getLast? with
      | none =>
        have : cs' = [] := List.getLast?_eq_none_iff.mp hl
        subst this
        simp
      | some c' =>
        have : (c :: cs').getLast? = some c' := by
          rw [List.getLast?_cons, hl]
          rfl
        simp [this]
    · simp only [Bool.not_eq_true] at h1
      by_cases h2 : isParamField f = true
      · simp only [List.filter_cons, h1, h2, if_true, Bool.false_eq_true, if_false] at hcs hps
        obtain ⟨p, ps', hp, hps', rfl⟩ := List.forall₂_cons_left_iff.mp hps
        simp only [h1, h2, if_true, Bool.false_eq_true, if_false, hp]
        rw [ih (st.1, st.2 ++ [p]) cs ps' hcs hps']
        simp
      · simp only [Bool.not_eq_true] at h2
        simp only [List.filter_cons, h1, h2, Bool.false_eq_true, if_false] at hcs hps
        simp only [h1, h2, Bool.false_eq_true, if_false]
        exact ih st cs ps hcs hps

/-- A field loop that comes to an end has extracted every marked field. -/
theorem fieldLoop_ok_forall₂ (tbl : Str → Str) (fields : List Field)
    (st st' : Option cmdData × List templateParam)
    (h : fieldLoop tbl st fields = .ok st') :
    ∃ cs ps,
      List.Forall₂ (fun f c => extractCmdData tbl (tagOf f) = .ok c)
        (fields.filter isCmdField) cs ∧
      List.Forall₂ (fun f p => extractParam (tagOf f) = .ok p)
        (fields.filter isParamField) ps := by
  induction fields generalizing st with
  | nil => exact ⟨[], [], by simp, by simp⟩
  | cons f rest ih =>
    simp only [fieldLoop, fieldStep_eq, bind, Except.bind] at h
    by_cases h1 : isCmdField f = true
    · have hnp : isParamField f = false := isParamField_of_isCmdField f h1
      simp only [h1, if_true] at h
      cases hc : extractCmdData tbl (tagOf f) with
      | error e => rw [hc] at h; cases h
      | ok c =>
        rw [hc] at h
        obtain ⟨cs, ps, hcs, hps⟩ := ih _ h
        refine ⟨c :: cs, ps, ?_, ?_⟩
        · simp only [List.filter_cons, h1, if_true]
          exact List.Forall₂.cons hc hcs
        · simp only [List.filter_cons, hnp, Bool.false_eq_true, if_false]
          exact hps
    · simp only [Bool.not_eq_true] at h1
      by_cases h2 : isParamField f = true
      · simp only [h1, h2, if_true, Bool.false_eq_true, if_false] at h
        cases hp : extractParam (tagOf f) with
        | error e => rw [hp] at h; cases h
        | ok p =>
          rw [hp] at h
          obtain ⟨cs, ps, hcs, hps⟩ := ih _ h
          refine ⟨cs, p :: ps, ?_, ?_⟩
          · simp only [List.filter_cons, h1, Bool.false_eq_true, if_false]
            exact hcs
          · simp only [List.filter_cons, h2, if_true]
            exact List.Forall₂.cons hp hps
      · simp only [Bool.not_eq_true] at h2
        simp only [h1, h2, Bool.false_eq_true, if_false] at h
        obtain ⟨cs, ps, hcs, hps⟩ := ih _ h
        refine ⟨cs, ps, ?_, ?_⟩
        · simp only [List.filter_cons, h1, Bool.false_eq_true, if_false]
          exact hcs
        · simp only [List.filter_cons, h2, Bool.false_eq_true, if_false]
          exact hps
/-! ## Facts about maps -/

theorem GoMap.get?_set_self {V : Type} (m : GoMap V) (k : Str) (v : V) :
    (m.set k v).get? k = some v := by
  induction m with
  | nil => simp [GoMap.set, GoMap.get?]
  | cons e rest ih =>
    obtain ⟨k', v'⟩ := e
    by_cases h : k' = k
    · simp [GoMap.set, GoMap.get?, h]
    · simp [GoMap.set, GoMap.get?, h, ih]

theorem GoMap.get?_set_ne {V : Type} (m : GoMap V) (k k₁ : Str) (v : V) (hne : k₁ ≠ k) :
    (m.set k v).get? k₁ = m.get? k₁ := by
  induction m with
  | nil =>
    have : ¬ k = k₁ := fun e => hne e.symm
    simp [GoMap.set, GoMap.get?, this]
  | cons e rest ih =>
    obtain ⟨k', v'⟩ := e
    by_cases h : k' = k
    · subst h
      have : ¬ k' = k₁ := fun e => hne e.symm
      simp [GoMap.set, GoMap.get?, this]
    · by_cases h1 : k' = k₁
      · subst h1
        simp [GoMap.set, GoMap.get?, h]
      · simp [GoMap.set, GoMap.get?, h, h1, ih]

theorem GoMap.mem_set {V : Type} (m : GoMap V) (k : Str) (v : V) (e : Str × V)
    (h : e ∈ m.set k v) : e = (k, v) ∨ e ∈ m := by
  induction m with
  | nil =>
    simp only [GoMap.set, List.mem_singleton] at h
    exact Or.inl h
  | cons e' rest ih =>
    obtain ⟨k', v'⟩ := e'
    by_cases hk : k' = k
    · simp only [GoMap.set, hk, if_true, List.mem_cons] at h
      rcases h with h | h
      · exact Or.inl h
      · exact Or.inr (List.mem_cons_of_mem _ h)
    · simp only [GoMap.set, hk, if_false, List.mem_cons] at h
      rcases h with h | h
      · exact Or.inr (h ▸ List.mem_cons_self _ _)
      · rcases ih h with h' | h'
        · exact Or.inl h'
        · exact Or.inr (List.mem_cons_of_mem _ h')

/-! ## Facts about the scanner -/

theorem forall₂_exists_of_mem_right {α β : Type} {R : α → β → Prop} {l : List α}
    {r : List β} (h : List.Forall₂ R l r) {b : β} (hb : b ∈ r) : ∃ a ∈ l, R a b := by
  induction h with
  | nil => simp at hb
  | cons hab _ ih =>
    rcases List.mem_cons.mp hb with e | hm
    · subst e
      exact ⟨_, List.mem_cons_self _ _, hab⟩
    · obtain ⟨a, ha, hr⟩ := ih hm
      exact ⟨a, List.mem_cons_of_mem _ ha, hr⟩

theorem extractCmdData_params (tbl : Str → Str) (s : Str) (c : cmdData)
    (h : extractCmdData tbl s = .ok c) : c.Params = [] := by
  cases ht : extractTags s with
  | error e => simp [extractCmdData, ht, bind, Except.bind] at h
  | ok tags =>
    rw [extractCmdData_eq tbl s tags ht] at h
    cases h
    rfl

theorem sortSlice_nil (lib : GoLib) {α : Type} (less : α → α → Bool) :
    lib.sortSlice less [] = [] :=
  List.Perm.eq_nil (lib.sortSlice_perm less [])

theorem sortSlice_sortedByName (lib : GoLib) (ps : List templateParam) :
    sortedByName (lib.sortSlice lessByName ps) := by
  unfold sortedByName
  refine List.Chain'.imp ?_ (lib.sortSlice_sorted lessByName lessByName_strictWeak ps)
  intro a b hab
  exact (strLess_total a.Name b.Name).mp hab

theorem Visit_struct_eq (lib : GoLib) (v : findStructs) (name : Str) (fields : List Field) :
    Visit lib v (structDecl name fields) =
      match fieldLoop lib.unicodeLower (none, []) fields with
      | .error e => .error e
      | .ok (some c, params) =>
        .ok { result := some (v.entries.set name
          (if params.length > 0 then { c with Params := lib.sortSlice lessByName params }
            else c)) }
      | .ok (none, _) => .ok { result := some v.entries } := by
  unfold Visit structDecl findStructs.entries
  simp only [bind, Except.bind]
  cases fieldLoop lib.unicodeLower (none, []) fields with
  | error e => rfl
  | ok st =>
    obtain ⟨cmd, params⟩ := st
    cases cmd <;> cases v.result <;> rfl

theorem Visit_other_eq (lib : GoLib) (v : findStructs) (node : Node)
    (h : ∀ name fields, node ≠ structDecl name fields) :
    Visit lib v node = .ok { result := some v.entries } := by
  unfold Visit findStructs.entries
  cases node with
  | otherNode => cases v.result <;> rfl
  | TypeSpec name typ =>
    cases typ with
    | otherType => cases v.result <;> rfl
    | StructType fields => exact absurd rfl (h name fields)

/-- The visitor on a struct declaration all of whose marked fields are
accepted: with a command field, the entry of the declared name becomes the
record of the last command field, with the sorted parameters. -/
theorem Visit_of_forall₂ (lib : GoLib) (v : findStructs) (name : Str) (fields : List Field)
    (cs : List cmdData) (ps : List templateParam)
    (hcs : List.Forall₂ (fun f c => extractCmdData lib.unicodeLower (tagOf f) = .ok c)
      (fields.filter isCmdField) cs)
    (hps : List.Forall₂ (fun f p => extractParam (tagOf f) = .ok p)
      (fields.filter isParamField) ps) :
    Visit lib v (structDecl name fields) =
      match cs.getLast? with
      | some c => .ok { result := some (v.entries.set name
          { c with Params := lib.sortSlice lessByName ps }) }
      | none => .ok { result := some v.entries } := by
  rw [Visit_struct_eq, fieldLoop_of_forall₂ lib.unicodeLower fields (none, []) cs ps hcs hps]
  cases hl : cs.getLast? with
  | none => rfl
  | some c =>
    have hmem : c ∈ cs := List.mem_of_getLast?_eq_some hl
    obtain ⟨f, _, hc⟩ := forall₂_exists_of_mem_right hcs hmem
    have hparams : c.Params = [] := extractCmdData_params _ _ _ hc
    simp only [List.nil_append]
    cases ps with
    | nil =>
      simp only [List.length_nil, gt_iff_lt, lt_self_iff_false, if_false, sortSlice_nil]
      rw [← hparams]
    | cons p ps' =>
      simp
theorem exists_forall₂_of_forall {α β : Type} {R : α → β → Prop} (l : List α)
    (h : ∀ a ∈ l, ∃ b, R a b) : ∃ r, List.Forall₂ R l r := by
  induction l with
  | nil => exact ⟨[], List.Forall₂.nil⟩
  | cons a rest ih =>
    obtain ⟨b, hb⟩ := h a (List.mem_cons_self _ _)
    obtain ⟨r, hr⟩ := ih (fun a' ha' => h a' (List.mem_cons_of_mem _ ha'))
    exact ⟨b :: r, List.Forall₂.cons hb hr⟩

theorem forall₂_getLast? {α β : Type} {R : α → β → Prop} {l : List α} {r : List β}
    (h : List.Forall₂ R l r) {a : α} (ha : l.getLast? = some a) :
    ∃ b, r.getLast? = some b ∧ R a b := by
  induction h with
  | nil => simp at ha
  | @cons a' b' l' r' hab hrest ih =>
    cases l' with
    | nil =>
      have hr' : r' = [] := by
        cases hrest
        rfl
      subst hr'
      simp only [List.getLast?_singleton, Option.some.injEq] at ha
      subst ha
      exact ⟨b', by simp, hab⟩
    | cons a'' l'' =>
      cases hrest with
      | @cons _ b'' _ r'' hab' hrest' =>
        rw [List.getLast?_cons_cons] at ha
        obtain ⟨b, hb, hR⟩ := ih ha
        exact ⟨b, by rw [List.getLast?_cons_cons]; exact hb, hR⟩

theorem GoMap.mem_keys_set {V : Type} (m : GoMap V) (k k₁ : Str) (v : V)
    (h : k₁ ∈ (m.set k v).keys) : k₁ = k ∨ k₁ ∈ m.keys := by
  unfold GoMap.keys at h ⊢
  obtain ⟨e, he, rfl⟩ := List.mem_map.mp h
  rcases GoMap.mem_set m k v e he with h' | h'
  · left; rw [h']
  · right; exact List.mem_map_of_mem _ h'

theorem GoMap.get?_eq_none_of_not_mem_keys {V : Type} (m : GoMap V) (k : Str)
    (h : k ∉ m.keys) : m.get? k = none := by
  induction m with
  | nil => rfl
  | cons e rest ih =>
    obtain ⟨k', v'⟩ := e
    have h1 : ¬ k' = k := fun e => h (by rw [GoMap.keys, List.map_cons, e]; exact List.mem_cons_self _ _)
    have h2 : k ∉ GoMap.keys rest := fun e => h (by
      rw [GoMap.keys, List.map_cons]; exact List.mem_cons_of_mem _ e)
    simp [GoMap.get?, h1, ih h2]

/-- What a call of the visitor that returns has done to the collection:
nothing, or it has stored, under the name of a struct declaration that has
a command field, a record with sorted parameters. -/
theorem Visit_ok_cases (lib : GoLib) (v v' : findStructs) (node : Node)
    (h : Visit lib v node = .ok v') :
    v'.entries = v.entries ∨
      ∃ name fields c, node = structDecl name fields ∧
        (∃ f ∈ fields, isCmdField f = true) ∧
        v'.entries = v.entries.set name c ∧ sortedByName c.Params := by
  by_cases hs : ∃ name fields, node = structDecl name fields
  · obtain ⟨name, fields, rfl⟩ := hs
    have h0 := h
    rw [Visit_struct_eq] at h0
    cases hloop : fieldLoop lib.unicodeLower (none, []) fields with
    | error e => rw [hloop] at h0; cases h0
    | ok st =>
      obtain ⟨cs, ps, hcs, hps⟩ := fieldLoop_ok_forall₂ _ _ _ _ hloop
      rw [Visit_of_forall₂ lib v name fields cs ps hcs hps] at h
      cases hl : cs.getLast? with
      | none =>
        rw [hl] at h
        cases h
        exact Or.inl rfl
      | some c =>
        rw [hl] at h
        cases h
        right
        refine ⟨name, fields, _, rfl, ?_, rfl, sortSlice_sortedByName lib ps⟩
        obtain ⟨f, hf, _⟩ := forall₂_exists_of_mem_right hcs (List.mem_of_getLast?_eq_some hl)
        exact ⟨f, (List.mem_filter.mp hf).1, (List.mem_filter.mp hf).2⟩
  · left
    rw [Visit_other_eq lib v node (fun name fields e => hs ⟨name, fields, e⟩)] at h
    cases h
    rfl

theorem visitAll_keys (lib : GoLib) (name : Str) (nodes : List Node) (v v' : findStructs)
    (hno : ∀ fields, structDecl name fields ∈ nodes → ∀ f ∈ fields, isCmdField f = false)
    (hv : name ∉ v.entries.keys) (h : visitAll lib v nodes = .ok v') :
    name ∉ v'.entries.keys := by
  induction nodes generalizing v with
  | nil =>
    simp only [visitAll] at h
    cases h
    exact hv
  | cons n rest ih =>
    simp only [visitAll, bind, Except.bind] at h
    cases hstep : Visit lib v n with
    | error e => rw [hstep] at h; cases h
    | ok v₁ =>
      rw [hstep] at h
      refine ih v₁ (fun fields hm => hno fields (List.mem_cons_of_mem _ hm)) ?_ h
      rcases Visit_ok_cases lib v v₁ n hstep with he | ⟨nm, fields, c, rfl, ⟨f, hf, hcmd⟩, he, _⟩
      · rw [he]; exact hv
      · rw [he]
        intro hmem
        rcases GoMap.mem_keys_set _ _ _ _ hmem with e | hm
        · subst e
          have := hno fields (List.mem_cons_self _ _) f hf
          rw [this] at hcmd
          cases hcmd
        · exact hv hm

theorem visitAll_sorted (lib : GoLib) (nodes : List Node) (v v' : findStructs)
    (hv : ∀ e ∈ v.entries, sortedByName e.2.Params) (h : visitAll lib v nodes = .ok v') :
    ∀ e ∈ v'.entries, sortedByName e.2.Params := by
  induction nodes generalizing v with
  | nil =>
    simp only [visitAll] at h
    cases h
    exact hv
  | cons n rest ih =>
    simp only [visitAll, bind, Except.bind] at h
    cases hstep : Visit lib v n with
    | error e => rw [hstep] at h; cases h
    | ok v₁ =>
      rw [hstep] at h
      refine ih v₁ ?_ h
      rcases Visit_ok_cases lib v v₁ n hstep with he | ⟨nm, fields, c, _, _, he, hsorted⟩
      · rw [he]; exact hv
      · rw [he]
        intro e hmem
        rcases GoMap.mem_set _ _ _ _ hmem with e' | hm
        · rw [e']; exact hsorted
        · exact hv e hm

/-! ## Types without a command marker -/

/-- Claim C7.  For a struct type declaration none of whose field tags
contains `awsAPI`, a call of `Visit` that returns leaves the entries of the
collection as they were, and it does return when the tags containing
`templateName` are accepted by the parser; and after any scan from the
empty collection, a name none of whose struct declarations has a command
marker is not a key of the collection. -/
theorem Visit_without_marker (lib : GoLib) :
    (∀ (v : findStructs) (name : Str) (fields : List Field),
        (∀ f ∈ fields, isCmdField f = false) →
        (∀ v', Visit lib v (structDecl name fields) = .ok v' → v'.entries = v.entries) ∧
        ((∀ f ∈ fields, isParamField f = true → ∃ p, extractParam (tagOf f) = .ok p) →
          ∃ v', Visit lib v (structDecl name fields) = .ok v' ∧ v'.entries = v.entries)) ∧
      (∀ (nodes : List Node) (name : Str),
        (∀ fields, structDecl name fields ∈ nodes → ∀ f ∈ fields, isCmdField f = false) →
        ∀ v', visitAll lib { result := none } nodes = .ok v' →
          name ∉ v'.entries.keys ∧ v'.entries.get? name = none) := by
  refine ⟨?_, ?_⟩
  · intro v name fields hno
    have hfilter : fields.filter isCmdField = [] := by
      rw [List.filter_eq_nil_iff]
      intro f hf
      rw [hno f hf]
      simp
    refine ⟨?_, ?_⟩
    · intro v' h
      rcases Visit_ok_cases lib v v' _ h with he | ⟨nm, fs, c, hnode, ⟨f, hf, hcmd⟩, _, _⟩
      · exact he
      · simp only [structDecl, Node.TypeSpec.injEq, TypeExpr.StructType.injEq] at hnode
        obtain ⟨_, rfl⟩ := hnode
        rw [hno f hf] at hcmd
        cases hcmd
    · intro hacc
      obtain ⟨ps, hps⟩ := exists_forall₂_of_forall (R := fun f p => extractParam (tagOf f) = .ok p)
        (fields.filter isParamField)
        (fun f hf => hacc f (List.mem_filter.mp hf).1 (List.mem_filter.mp hf).2)
      have hcs : List.Forall₂ (fun f c => extractCmdData lib.unicodeLower (tagOf f) = .ok c)
          (fields.filter isCmdField) [] := by
        rw [hfilter]
        exact List.Forall₂.nil
      exact ⟨_, Visit_of_forall₂ lib v name fields [] ps hcs hps, rfl⟩
  · intro nodes name hno v' h
    have hk : name ∉ v'.entries.keys :=
      visitAll_keys lib name nodes { result := none } v' hno (by simp [findStructs.entries, GoMap.keys]) h
    exact ⟨hk, GoMap.get?_eq_none_of_not_mem_keys _ _ hk⟩

/-- Witness for C7: a struct with two parameter fields and no command field
leaves a collection with one entry as it was, and a scan of it from the empty
collection does not hold its name. -/
theorem Visit_without_marker_witness :
    (∃ v', Visit refLib { result := some [("Other".toList, noParamsCmd)] }
        (structDecl "Params".toList paramsOnlyFields) = .ok v' ∧
        v'.entries = [("Other".toList, noParamsCmd)]) ∧
      "Params".toList ∉ (findStructs.entries { result := some [] }).keys ∧
      (findStructs.entries { result := some [] }).get? "Params".toList = none :=
  ⟨((Visit_without_marker refLib).1 { result := some [("Other".toList, noParamsCmd)] }
      "Params".toList paramsOnlyFields (by decide)).2
      (by
        intro f hf hp
        simp only [paramsOnlyFields, List.mem_cons, List.mem_singleton, List.not_mem_nil,
          or_false] at hf
        rcases hf with rfl | rfl | rfl
        · exact ⟨_, rfl⟩
        · exact absurd hp (by decide)
        · exact ⟨_, rfl⟩),
    (Visit_without_marker refLib).2 [structDecl "Params".toList paramsOnlyFields]
      "Params".toList
      (by
        intro fields hm
        simp only [List.mem_singleton, structDecl, Node.TypeSpec.injEq,
          TypeExpr.StructType.injEq, true_and] at hm
        subst hm
        decide)
      { result := some [] } (by decide)⟩

/-! ## Sorted parameters -/

/-- Claim C8.  Starting from the empty collection, after `Visit` has been
applied to any sequence of nodes, the `Params` list of every entry of the
collection is non-decreasing by `Name`: in every adjacent pair the first
name equals the second or is lexicographically before it. -/
theorem visitAll_params_sorted (lib : GoLib) (nodes : List Node) (v' : findStructs)
    (h : visitAll lib { result := none } nodes = .ok v') :
    ∀ e ∈ v'.entries, sortedByName e.2.Params :=
  visitAll_sorted lib nodes { result := none } v' (by simp [findStructs.entries]) h

/-- Witness for C8: a command with parameters named `b`, `a`, `a` is
recorded with its parameters in the order `a`, `a`, `b`. -/
theorem visitAll_params_sorted_witness :
    visitAll refLib { result := none } [Node.otherNode, structDecl "Dup".toList dupFields]
        = .ok { result := some [("Dup".toList, dupCmd)] } ∧
      sortedByName dupCmd.Params :=
  ⟨by decide,
    visitAll_params_sorted refLib [Node.otherNode, structDecl "Dup".toList dupFields]
      { result := some [("Dup".toList, dupCmd)] } (by decide) ("Dup".toList, dupCmd)
      (List.mem_singleton.mpr rfl)⟩

/-! ## Types with a command marker -/

/-- Counterexample to C9: a struct whose first command field has an
unquoted value and whose last command field is well formed.  The record of
the last command field exists, yet `Visit` stores nothing: it aborts on
the first field. -/
theorem Visit_malformed_first_aborts :
    extractCmdData refLib.unicodeLower "`awsAPI:\"ec2\"`".toList = .ok noParamsCmd ∧
      Visit refLib { result := none } (structDecl "Cmd".toList twoCmdFields)
        = .error (.malformedTag "awsAPI".toList "ec2".toList) ∧
      ¬ ∃ v', Visit refLib { result := none } (structDecl "Cmd".toList twoCmdFields) = .ok v' ∧
          v'.entries.get? "Cmd".toList = some noParamsCmd := by
  have herr : Visit refLib { result := none } (structDecl "Cmd".toList twoCmdFields)
      = .error (.malformedTag "awsAPI".toList "ec2".toList) := by decide
  refine ⟨by decide, herr, ?_⟩
  rintro ⟨v', h, _⟩
  rw [herr] at h
  cases h

theorem isMarked_eq (f : Field) : isMarked f = (isCmdField f || isParamField f) := by
  unfold isMarked isCmdField isParamField
  cases f.Tag with
  | none => rfl
  | some tag =>
    dsimp only
    cases Contains tag "awsAPI".toList <;> cases Contains tag "templateName".toList <;> rfl

theorem extractCmdData_error (tbl : Str → Str) (s : Str) (e : Panic)
    (h : extractTags s = .error e) : extractCmdData tbl s = .error e := by
  simp only [extractCmdData, h, bind, Except.bind]

theorem extractParam_error (s : Str) (e : Panic)
    (h : extractTags s = .error e) : extractParam s = .error e := by
  simp only [extractParam, h, bind, Except.bind]

theorem fieldStep_unmarked (tbl : Str → Str) (st : Option cmdData × List templateParam)
    (f : Field) (h : isMarked f = false) : fieldStep tbl st f = .ok st := by
  rw [isMarked_eq] at h
  have h1 : isCmdField f = false := by
    cases hc : isCmdField f with
    | false => rfl
    | true => rw [hc] at h; cases h
  have h2 : isParamField f = false := by
    cases hp : isParamField f with
    | false => rfl
    | true => rw [h1, hp] at h; cases h
  rw [fieldStep_eq]
  simp only [h1, h2, Bool.false_eq_true, if_false]

theorem fieldStep_rejected (tbl : Str → Str) (st : Option cmdData × List templateParam)
    (f : Field) (e : Panic) (hm : isMarked f = true)
    (h : extractTags (tagOf f) = .error e) : fieldStep tbl st f = .error e := by
  rw [isMarked_eq] at hm
  rw [fieldStep_eq]
  cases hc : isCmdField f with
  | true =>
    simp only [if_true, extractCmdData_error tbl _ e h]
  | false =>
    have hp : isParamField f = true := by
      rw [hc] at hm
      exact hm
    simp only [Bool.false_eq_true, if_false, hp, if_true, extractParam_error _ e h]

theorem fieldStep_accepted (tbl : Str → Str) (st : Option cmdData × List templateParam)
    (f : Field) (tags : GoMap Str) (h : extractTags (tagOf f) = .ok tags) :
    ∃ st', fieldStep tbl st f = .ok st' := by
  rw [fieldStep_eq]
  cases hc : isCmdField f with
  | true =>
    simp only [if_true, extractCmdData_eq tbl _ tags h]
    exact ⟨_, rfl⟩
  | false =>
    cases hp : isParamField f with
    | true =>
      simp only [Bool.false_eq_true, if_false, if_true, extractParam_eq _ tags h]
      exact ⟨_, rfl⟩
    | false =>
      simp only [Bool.false_eq_true, if_false]
      exact ⟨_, rfl⟩

/-- The field loop aborts on the first marked field whose tag the parser
rejects, with the panic of the parser. -/
theorem fieldLoop_rejected (tbl : Str → Str) (fields : List Field)
    (st : Option cmdData × List templateParam)
    (h : ∃ f ∈ fields, isMarked f = true ∧ ∃ e, extractTags (tagOf f) = .error e) :
    ∃ pre bad post e, fields = pre ++ bad :: post ∧
      (∀ g ∈ pre, isMarked g = true → ∃ tags, extractTags (tagOf g) = .ok tags) ∧
      isMarked bad = true ∧ extractTags (tagOf bad) = .error e ∧
      fieldLoop tbl st fields = .error e := by
  induction fields generalizing st with
  | nil =>
    obtain ⟨f, hf, _⟩ := h
    simp at hf
  | cons f rest ih =>
    by_cases hbad : isMarked f = true ∧ ∃ e, extractTags (tagOf f) = .error e
    · obtain ⟨hm, e, he⟩ := hbad
      refine ⟨[], f, rest, e, rfl, ?_, hm, he, ?_⟩
      · intro g hg
        simp at hg
      · simp only [fieldLoop, fieldStep_rejected tbl st f e hm he, bind, Except.bind]
    · have hrest : ∃ g ∈ rest, isMarked g = true ∧ ∃ e, extractTags (tagOf g) = .error e := by
        obtain ⟨g, hg, hgm, hge⟩ := h
        rcases List.mem_cons.mp hg with rfl | hg'
        · exact absurd ⟨hgm, hge⟩ hbad
        · exact ⟨g, hg', hgm, hge⟩
      have hfacc : isMarked f = true → ∃ tags, extractTags (tagOf f) = .ok tags := by
        intro hm
        cases ht : extractTags (tagOf f) with
        | ok tags => exact ⟨tags, rfl⟩
        | error e => exact absurd ⟨hm, e, ht⟩ hbad
      have hstep : ∃ st', fieldStep tbl st f = .ok st' := by
        cases hm : isMarked f with
        | false => exact ⟨st, fieldStep_unmarked tbl st f hm⟩
        | true =>
          obtain ⟨tags, ht⟩ := hfacc hm
          exact fieldStep_accepted tbl st f tags ht
      obtain ⟨st', hst'⟩ := hstep
      obtain ⟨pre, bad, post, e, hsplit, hpre, hm, he, hloop⟩ := ih st' hrest
      refine ⟨f :: pre, bad, post, e, by rw [hsplit]; rfl, ?_, hm, he, ?_⟩
      · intro g hg
        rcases List.mem_cons.mp hg with rfl | hg'
        · exact hfacc
        · exact hpre g hg'
      · simp only [fieldLoop, hst', bind, Except.bind]
        exact hloop

/-- Claim C9, amended.  For a struct type declaration in which every field
tag containing `awsAPI` or `templateName` is accepted by `extractTags`, and
which has at least one field whose tag contains `awsAPI`: `Visit` returns,
and the entry of the type's name is the record of the last such field with
`Params` a rearrangement, sorted by `Name`, of the `extractParam` results of
exactly the fields whose tag contains `templateName` and not `awsAPI`;
every other entry of the collection is unchanged.  When the tag of some
field containing `awsAPI` or `templateName` is rejected by `extractTags`,
`Visit` aborts with the panic that the parser raises on the first such
field, and returns no collection. -/
theorem Visit_command_entry (lib : GoLib) (v : findStructs) (name : Str)
    (fields : List Field) :
    (∀ last : Field,
        (∀ f ∈ fields, isMarked f = true → ∃ tags, extractTags (tagOf f) = .ok tags) →
        (fields.filter isCmdField).getLast? = some last →
        ∃ v' c ps sorted,
          Visit lib v (structDecl name fields) = .ok v' ∧
          extractCmdData lib.unicodeLower (tagOf last) = .ok c ∧
          List.Forall₂ (fun f p => extractParam (tagOf f) = .ok p)
            (fields.filter isParamField) ps ∧
          sorted.Perm ps ∧ sortedByName sorted ∧
          v'.entries = v.entries.set name { c with Params := sorted } ∧
          v'.entries.get? name = some { c with Params := sorted } ∧
          ∀ k, k ≠ name → v'.entries.get? k = v.entries.get? k) ∧
      ((∃ f ∈ fields, isMarked f = true ∧ ∃ e, extractTags (tagOf f) = .error e) →
        ∃ pre bad post e, fields = pre ++ bad :: post ∧
          (∀ g ∈ pre, isMarked g = true → ∃ tags, extractTags (tagOf g) = .ok tags) ∧
          isMarked bad = true ∧ extractTags (tagOf bad) = .error e ∧
          Visit lib v (structDecl name fields) = .error e ∧
          ¬ ∃ v', Visit lib v (structDecl name fields) = .ok v') := by
  refine ⟨?_, ?_⟩
  · intro last hacc hlast
    have hcmd : ∀ f ∈ fields, isCmdField f = true →
        ∃ c, extractCmdData lib.unicodeLower (tagOf f) = .ok c := by
      intro f hf hc
      obtain ⟨tags, ht⟩ := hacc f hf (by rw [isMarked_eq, hc]; rfl)
      exact ⟨_, extractCmdData_eq _ _ tags ht⟩
    have hpar : ∀ f ∈ fields, isParamField f = true →
        ∃ p, extractParam (tagOf f) = .ok p := by
      intro f hf hp
      obtain ⟨tags, ht⟩ := hacc f hf (by rw [isMarked_eq, hp, Bool.or_true])
      exact ⟨_, extractParam_eq _ tags ht⟩
    obtain ⟨cs, hcs⟩ := exists_forall₂_of_forall
      (R := fun f c => extractCmdData lib.unicodeLower (tagOf f) = .ok c)
      (fields.filter isCmdField)
      (fun f hf => hcmd f (List.mem_filter.mp hf).1 (List.mem_filter.mp hf).2)
    obtain ⟨ps, hps⟩ := exists_forall₂_of_forall
      (R := fun f p => extractParam (tagOf f) = .ok p)
      (fields.filter isParamField)
      (fun f hf => hpar f (List.mem_filter.mp hf).1 (List.mem_filter.mp hf).2)
    obtain ⟨c, hc, hlastc⟩ := forall₂_getLast? hcs hlast
    have hV := Visit_of_forall₂ lib v name fields cs ps hcs hps
    rw [hc] at hV
    exact ⟨_, c, ps, lib.sortSlice lessByName ps, hV, hlastc, hps,
      lib.sortSlice_perm lessByName ps, sortSlice_sortedByName lib ps, rfl,
      GoMap.get?_set_self _ _ _, fun k hk => GoMap.get?_set_ne _ _ _ _ hk⟩
  · intro hrej
    obtain ⟨pre, bad, post, e, hsplit, hpre, hm, he, hloop⟩ :=
      fieldLoop_rejected lib.unicodeLower fields (none, []) hrej
    have hV : Visit lib v (structDecl name fields) = .error e := by
      rw [Visit_struct_eq, hloop]
    refine ⟨pre, bad, post, e, hsplit, hpre, hm, he, hV, ?_⟩
    rintro ⟨v', hv'⟩
    rw [hV] at hv'
    cases hv'

/-- Witness for C9 amended: of two command fields the last one gives the
record, and the two parameter fields give its parameters; a command struct
with the unquoted parameter tag `templateName:cidr` makes `Visit` abort. -/
theorem Visit_command_entry_witness :
    (∃ v' c ps sorted,
      Visit refLib { result := some [("Cmd".toList, noParamsCmd)] }
        (structDecl "Cmd".toList lastWinsFields) = .ok v' ∧
      extractCmdData refLib.unicodeLower
        (tagOf { Tag := some "`awsAPI:\"ec2\" action:\"create\"`".toList }) = .ok c ∧
      List.Forall₂ (fun f p => extractParam (tagOf f) = .ok p)
        (lastWinsFields.filter isParamField) ps ∧
      sorted.Perm ps ∧ sortedByName sorted ∧
      v'.entries = GoMap.set (findStructs.entries { result := some [("Cmd".toList, noParamsCmd)] })
        "Cmd".toList { c with Params := sorted } ∧
      v'.entries.get? "Cmd".toList = some { c with Params := sorted } ∧
      ∀ k, k ≠ "Cmd".toList → v'.entries.get? k =
        (findStructs.entries { result := some [("Cmd".toList, noParamsCmd)] }).get? k) ∧
      (∃ pre bad post e, badParamFields = pre ++ bad :: post ∧
        (∀ g ∈ pre, isMarked g = true → ∃ tags, extractTags (tagOf g) = .ok tags) ∧
        isMarked bad = true ∧ extractTags (tagOf bad) = .error e ∧
        Visit refLib { result := none } (structDecl "Cmd".toList badParamFields) = .error e ∧
        ¬ ∃ v', Visit refLib { result := none }
          (structDecl "Cmd".toList badParamFields) = .ok v') :=
  ⟨(Visit_command_entry refLib { result := some [("Cmd".toList, noParamsCmd)] }
      "Cmd".toList lastWinsFields).1
      { Tag := some "`awsAPI:\"ec2\" action:\"create\"`".toList }
      (by
        intro f hf hm
        simp only [lastWinsFields, List.mem_cons, List.mem_singleton, List.not_mem_nil,
          or_false] at hf
        rcases hf with rfl | rfl | rfl | rfl | rfl
        · exact ⟨_, rfl⟩
        · exact ⟨_, rfl⟩
        · exact absurd hm (by decide)
        · exact ⟨_, rfl⟩
        · exact ⟨_, rfl⟩)
      (by decide),
    (Visit_command_entry refLib { result := none } "Cmd".toList badParamFields).2
      ⟨{ Tag := some "`templateName:cidr`".toList }, by decide, by decide,
        .malformedTag "templateName".toList "cidr".toList, by decide⟩⟩

/-! ## The end-to-end scenario -/

/-- Counterexample to C10: with the key names written in the scenario
(`command`, `call`, `input`, `output`, `param`, `awsField`) no field carries
a marker the scanner looks for, and the scan records nothing. -/
theorem scan_spec_scenario_empty :
    visitAll refLib { result := none } [structDecl "CreateVpc".toList specScenarioFields]
        = .ok { result := some [] } ∧
      ¬ ∃ v' e, visitAll refLib { result := none }
            [structDecl "CreateVpc".toList specScenarioFields] = .ok v' ∧
          v'.entries.get? "CreateVpc".toList = some e ∧
          e.Action = "create".toList ∧ e.Entity = "vpc".toList ∧ e.API = "ec2".toList ∧
          e.Call = "CreateVpc".toList ∧ e.Params = [cidrParam] := by
  have hscan : visitAll refLib { result := none }
      [structDecl "CreateVpc".toList specScenarioFields] = .ok { result := some [] } := by
    decide
  refine ⟨hscan, ?_⟩
  rintro ⟨v', e, h, hget, _⟩
  rw [hscan] at h
  cases h
  cases hget

/-- Claim C10, amended.  Scanning one struct type that has a field tagged
`awsAPI:"ec2" action:"create" entity:"vpc" awsCall:"CreateVpc"
awsInput:"CreateVpcInput" awsOutput:"CreateVpcOutput"` and one parameter field
tagged `templateName:"cidr" required:"true" awsName:"CidrBlock"` produces,
under the type's name, the entry with `Action = create`, `Entity = vpc`,
`API = ec2`, `Call = CreateVpc`, `Input = CreateVpcInput`,
`Output = CreateVpcOutput`, no dry run, and the single parameter
`{Name: cidr, AwsField: CidrBlock, IsRequired: true}`. -/
theorem scan_vpc_scenario (lib : GoLib) (name : Str) :
    visitAll lib { result := none } [structDecl name vpcFields]
      = .ok { result := some [(name, { vpcCmd with Params := [cidrParam] })] } := by
  have htags : extractTags vpcCmdTag = .ok
      [("awsAPI".toList, "ec2".toList), ("action".toList, "create".toList),
        ("entity".toList, "vpc".toList), ("awsCall".toList, "CreateVpc".toList),
        ("awsInput".toList, "CreateVpcInput".toList),
        ("awsOutput".toList, "CreateVpcOutput".toList)] := by decide
  have hc : extractCmdData lib.unicodeLower (tagOf { Tag := some vpcCmdTag }) = .ok vpcCmd := by
    show extractCmdData lib.unicodeLower vpcCmdTag = .ok vpcCmd
    rw [extractCmdData_eq _ _ _ htags]
    rfl
  have hp : extractParam (tagOf { Tag := some vpcParamTag }) = .ok cidrParam := by decide
  have hf1 : vpcFields.filter isCmdField = [{ Tag := some vpcCmdTag }] := by decide
  have hf2 : vpcFields.filter isParamField = [{ Tag := some vpcParamTag }] := by decide
  have hcs : List.Forall₂ (fun f c => extractCmdData lib.unicodeLower (tagOf f) = .ok c)
      (vpcFields.filter isCmdField) [vpcCmd] := by
    rw [hf1]
    exact List.Forall₂.cons hc List.Forall₂.nil
  have hps : List.Forall₂ (fun f p => extractParam (tagOf f) = .ok p)
      (vpcFields.filter isParamField) [cidrParam] := by
    rw [hf2]
    exact List.Forall₂.cons hp List.Forall₂.nil
  have hsort : lib.sortSlice lessByName [cidrParam] = [cidrParam] :=
    List.perm_singleton.mp (lib.sortSlice_perm lessByName [cidrParam])
  simp only [visitAll, bind, Except.bind]
  rw [Visit_of_forall₂ lib _ name vpcFields [vpcCmd] [cidrParam] hcs hps, hsort]
  rfl

/-! ## Dry-run flags -/

/-- What a call of the visitor that returns has stored: nothing, or a record
that an accepted command tag gave, with other parameters. -/
theorem Visit_ok_record (lib : GoLib) (v v' : findStructs) (node : Node)
    (h : Visit lib v node = .ok v') :
    v'.entries = v.entries ∨
      ∃ name tag c sorted, extractCmdData lib.unicodeLower tag = .ok c ∧
        v'.entries = v.entries.set name { c with Params := sorted } := by
  by_cases hs : ∃ name fields, node = structDecl name fields
  · obtain ⟨name, fields, rfl⟩ := hs
    have h0 := h
    rw [Visit_struct_eq] at h0
    cases hloop : fieldLoop lib.unicodeLower (none, []) fields with
    | error e => rw [hloop] at h0; cases h0
    | ok st =>
      obtain ⟨cs, ps, hcs, hps⟩ := fieldLoop_ok_forall₂ _ _ _ _ hloop
      rw [Visit_of_forall₂ lib v name fields cs ps hcs hps] at h
      cases hl : cs.getLast? with
      | none =>
        rw [hl] at h
        cases h
        exact Or.inl rfl
      | some c =>
        rw [hl] at h
        cases h
        right
        obtain ⟨f, _, hc⟩ :=
          forall₂_exists_of_mem_right hcs (List.mem_of_getLast?_eq_some hl)
        exact ⟨name, tagOf f, c, _, hc, rfl⟩
  · left
    rw [Visit_other_eq lib v node (fun name fields e => hs ⟨name, fields, e⟩)] at h
    cases h
    rfl

theorem extractCmdData_gen_has (tbl : Str → Str) (s : Str) (c : cmdData)
    (h : extractCmdData tbl s = .ok c) (hg : c.GenDryRun = true) : c.HasDryRun = true := by
  cases ht : extractTags s with
  | error e => simp [extractCmdData, ht, bind, Except.bind] at h
  | ok tags =>
    rw [extractCmdData_eq tbl s tags ht] at h
    cases h
    dsimp only at hg ⊢
    cases hd : tags.get? "awsDryRun".toList with
    | none => rw [hd] at hg; cases hg
    | some v => rfl

theorem visitAll_gen_has (lib : GoLib) (nodes : List Node) (v v' : findStructs)
    (hv : ∀ e ∈ v.entries, e.2.GenDryRun = true → e.2.HasDryRun = true)
    (h : visitAll lib v nodes = .ok v') :
    ∀ e ∈ v'.entries, e.2.GenDryRun = true → e.2.HasDryRun = true := by
  induction nodes generalizing v with
  | nil =>
    simp only [visitAll] at h
    cases h
    exact hv
  | cons n rest ih =>
    simp only [visitAll, bind, Except.bind] at h
    cases hstep : Visit lib v n with
    | error e => rw [hstep] at h; cases h
    | ok v₁ =>
      rw [hstep] at h
      refine ih v₁ ?_ h
      rcases Visit_ok_record lib v v₁ n hstep with he | ⟨nm, tag, c, sorted, hc, he⟩
      · rw [he]; exact hv
      · rw [he]
        intro e hmem hg
        rcases GoMap.mem_set _ _ _ _ hmem with e' | hm
        · rw [e'] at hg ⊢
          exact extractCmdData_gen_has _ _ c hc hg
        · exact hv e hm hg

/-- Claim C19.  A record returned by `extractCmdData` has `GenDryRun` only
together with `HasDryRun`, and so has every entry of the collection that
a scan builds from the empty collection. -/
theorem genDryRun_implies_hasDryRun :
    (∀ (tbl : Str → Str) (s : Str) (c : cmdData), extractCmdData tbl s = .ok c →
        c.GenDryRun = true → c.HasDryRun = true) ∧
      (∀ (lib : GoLib) (nodes : List Node) (v' : findStructs),
        visitAll lib { result := none } nodes = .ok v' →
        ∀ e ∈ v'.entries, e.2.GenDryRun = true → e.2.HasDryRun = true) :=
  ⟨extractCmdData_gen_has,
    fun lib nodes v' h =>
      visitAll_gen_has lib nodes { result := none } v' (by simp [findStructs.entries]) h⟩

/-- Witness for C19: a command with a generated dry run. -/
theorem genDryRun_implies_hasDryRun_witness :
    extractCmdData id "`awsAPI:\"ec2\" awsDryRun:\"\"`".toList = .ok dryRunCmd ∧
      dryRunCmd.HasDryRun = true ∧
      visitAll refLib { result := none }
          [structDecl "Cmd".toList [{ Tag := some "`awsAPI:\"ec2\" awsDryRun:\"\"`".toList }]]
        = .ok { result := some [("Cmd".toList, dryRunCmd)] } ∧
      (dryRunCmd.GenDryRun = true → dryRunCmd.HasDryRun = true) :=
  ⟨by decide,
    genDryRun_implies_hasDryRun.1 id "`awsAPI:\"ec2\" awsDryRun:\"\"`".toList dryRunCmd
      (by decide) (by decide),
    by decide,
    genDryRun_implies_hasDryRun.2 refLib
      [structDecl "Cmd".toList [{ Tag := some "`awsAPI:\"ec2\" awsDryRun:\"\"`".toList }]]
      { result := some [("Cmd".toList, dryRunCmd)] } (by decide) ("Cmd".toList, dryRunCmd)
      (List.mem_singleton.mpr rfl)⟩

/-! ## Bounds of the slice and index expressions -/

theorem index_zero_ok (v : Str) (h : 2 ≤ v.length) : ∃ c, index v 0 = .ok c := by
  match v, h with
  | a :: w, _ => exact ⟨a, by simp [index]⟩

theorem index_last_ok (v : Str) (h : 2 ≤ v.length) :
    ∃ c, index v ((v.length : Int) - 1) = .ok c := by
  have hnn : (0 : Int) ≤ (v.length : Int) - 1 := by omega
  have hidx : ((v.length : Int) - 1).toNat = v.length - 1 := by omega
  have hlt : v.length - 1 < v.length := by omega
  refine ⟨v[v.length - 1], ?_⟩
  simp only [index, hnn, if_true, hidx]
  rw [List.get?_eq_getElem?, List.getElem?_eq_getElem hlt]

/-- Claim C20.  On an input of length 0 or 1 the slice `s[1:len(s)-1]` is
out of range and `extractTags` fails with that panic, before any token is
read.  On an input of length at least 2 that slice is in range and the
malformed-tag panic is the only way to fail: the guard on a value never
panics, and on a value of length at least 2 the index expressions
`v[0]`, `v[len(v)-1]` and the slice `v[1:len(v)-1]` are in range. -/
theorem extractTags_bounds (s : Str) :
    (s.length < 2 → slice s 1 ((s.length : Int) - 1) = .error .sliceBounds ∧
        extractTags s = .error .sliceBounds) ∧
      (2 ≤ s.length →
        slice s 1 ((s.length : Int) - 1) = .ok (stripEnds s) ∧
        ∀ e, extractTags s = .error e → ∃ k v, e = .malformedTag k v) ∧
      (∀ v : Str, 2 ≤ v.length →
        (∃ c, index v 0 = .ok c) ∧ (∃ c, index v ((v.length : Int) - 1) = .ok c) ∧
        slice v 1 ((v.length : Int) - 1) = .ok (stripEnds v)) ∧
      (∀ v : Str, ∃ b, malformed v = .ok b) := by
  refine ⟨?_, ?_, ?_, ?_⟩
  · intro h
    refine ⟨slice_short s h, ?_⟩
    simp [extractTags, slice_short s h, bind, Except.bind]
  · intro h
    refine ⟨slice_stripEnds s h, ?_⟩
    intro e he
    rw [extractTags_eq s h] at he
    exact tagLoop_error_malformed _ _ e he
  · intro v hv
    exact ⟨index_zero_ok v hv, index_last_ok v hv, slice_stripEnds v hv⟩
  · intro v
    exact ⟨_, malformed_eq v⟩

/-- Witness for C20: the empty string and a lone delimiter fail on the
slice; a pair of delimiters is accepted; an unquoted value fails with the
malformed-tag panic. -/
theorem extractTags_bounds_witness :
    extractTags [] = .error .sliceBounds ∧
      extractTags "x".toList = .error .sliceBounds ∧
      slice "xx".toList 1 ((("xx".toList).length : Int) - 1) = .ok (stripEnds "xx".toList) ∧
      (∃ k v, Panic.malformedTag "a".toList "b".toList = .malformedTag k v) :=
  ⟨((extractTags_bounds []).1 (by decide)).2,
    ((extractTags_bounds "x".toList).1 (by decide)).2,
    ((extractTags_bounds "xx".toList).2.1 (by decide)).1,
    ((extractTags_bounds "`a:b`".toList).2.1 (by decide)).2
      (.malformedTag "a".toList "b".toList) (by decide)⟩

/-! ## Duplicate keys and flag tokens -/

theorem storeTokens_get? (ts : List Str) (tags₀ tags : GoMap Str) (k : Str)
    (h : storeTokens tags₀ ts = .ok tags) :
    tags.get? k =
      match (ts.filter (hasKey k)).getLast? with
      | some t => some (stripEnds (beforeColon (afterColon t)))
      | none => tags₀.get? k := by
  induction ts generalizing tags₀ with
  | nil =>
    simp only [storeTokens] at h
    cases h
    rfl
  | cons t rest ih =>
    simp only [storeTokens] at h
    cases hstep : storeToken tags₀ t with
    | error e => rw [hstep] at h; cases h
    | ok tags₁ =>
      rw [hstep] at h
      have hrec := ih tags₁ h
      rw [hrec]
      unfold storeToken at hstep
      by_cases hm : ':' ∈ t
      · by_cases hb : badValue (beforeColon (afterColon t))
        · simp [hm, hb] at hstep
        · simp only [hm, hb, if_true, if_false, Except.ok.injEq] at hstep
          subst hstep
          by_cases hk : beforeColon t = k
          · have hp : hasKey k t = true := by simp [hasKey, hm, hk]
            rw [List.filter_cons_of_pos hp]
            cases hl : (rest.filter (hasKey k)).getLast? with
            | none =>
              have hnil := List.getLast?_eq_none_iff.mp hl
              rw [hnil]
              simp only [List.getLast?_singleton]
              rw [← hk]
              exact GoMap.get?_set_self _ _ _
            | some t' =>
              have : (t :: rest.filter (hasKey k)).getLast? = some t' := by
                rw [List.getLast?_cons, hl]
                rfl
              rw [this]
          · have hp : ¬ hasKey k t = true := by simp [hasKey, hk]
            rw [List.filter_cons_of_neg hp]
            cases (rest.filter (hasKey k)).getLast? with
            | none => exact GoMap.get?_set_ne _ _ _ _ (fun e => hk e.symm)
            | some t' => rfl
      · simp only [hm, if_false, Except.ok.injEq] at hstep
        subst hstep
        have hp : ¬ hasKey k t = true := by simp [hasKey, hm]
        rw [List.filter_cons_of_neg hp]

theorem extractTags_length (s : Str) (tags : GoMap Str) (h : extractTags s = .ok tags) :
    2 ≤ s.length := by
  by_contra hlt
  have hs := slice_short s (by omega)
  simp [extractTags, hs, bind, Except.bind] at h

/-- Claim C14.  For an annotation string that `extractTags` accepts, the
mapping holds for every key the unquoted value of the last token with that
key (the key being the text before the colon), and no value for a key that
no token has; the value of a token with one colon is the text after it. -/
theorem extractTags_last_wins (s : Str) (tags : GoMap Str) (h : extractTags s = .ok tags)
    (k : Str) :
    (tags.get? k =
        match ((Split (stripEnds s) ' ').filter (hasKey k)).getLast? with
        | some t => some (stripEnds (beforeColon (afterColon t)))
        | none => none) ∧
      ∀ t, ((Split (stripEnds s) ' ').filter (hasKey k)).getLast? = some t →
        t.count ':' ≤ 1 → tags.get? k = some (stripEnds (afterColon t)) := by
  have hlen := extractTags_length s tags h
  rw [extractTags_eq s hlen, tagLoop_eq_storeTokens] at h
  have hget := storeTokens_get? _ _ _ k h
  refine ⟨?_, ?_⟩
  · rw [hget]
    cases ((Split (stripEnds s) ' ').filter (hasKey k)).getLast? <;> rfl
  · intro t ht hcount
    rw [hget, ht]
    have hmem : t ∈ (Split (stripEnds s) ' ').filter (hasKey k) :=
      List.mem_of_getLast?_eq_some ht
    have hcolon : ':' ∈ t := by
      have := (List.mem_filter.mp hmem).2
      simp only [hasKey, decide_eq_true_eq] at this
      exact this.1
    simp only
    rw [beforeColon_of_not_mem _ (afterColon_not_mem t hcount hcolon)]

/-- Witness for C14: `a:"1" b:"2" a:"3"` gives `a -> 3` and `b -> 2`. -/
theorem extractTags_last_wins_witness :
    extractTags "`a:\"1\" b:\"2\" a:\"3\"`".toList
        = .ok [("a".toList, "3".toList), ("b".toList, "2".toList)] ∧
      GoMap.get? [("a".toList, "3".toList), ("b".toList, "2".toList)] "a".toList
        = some (stripEnds (afterColon "a:\"3\"".toList)) ∧
      stripEnds (afterColon "a:\"3\"".toList) = "3".toList :=
  ⟨by decide,
    (extractTags_last_wins "`a:\"1\" b:\"2\" a:\"3\"`".toList
      [("a".toList, "3".toList), ("b".toList, "2".toList)] (by decide) "a".toList).2
      "a:\"3\"".toList (by decide) (by decide),
    by decide⟩

theorem Split_no_sep (s : Str) (sep : Char) : ∀ t ∈ Split s sep, sep ∉ t := by
  induction s with
  | nil => simp [Split]
  | cons c cs ih =>
    unfold Split
    by_cases hc : c = sep
    · simp only [hc, if_true, List.mem_cons]
      rintro t (rfl | ht)
      · simp
      · exact ih t ht
    · simp only [hc, if_false]
      cases hsp : Split cs sep with
      | nil => exact absurd hsp (Split_ne_nil cs sep)
      | cons piece rest =>
        rw [hsp] at ih
        simp only [List.mem_cons]
        rintro t (rfl | ht)
        · intro hm
          rcases List.mem_cons.mp hm with e | hm'
          · exact hc e.symm
          · exact ih piece (List.mem_cons_self _ _) hm'
        · exact ih t (List.mem_cons_of_mem _ ht)

theorem tagLoop_skip (ts₁ ts₂ : List Str) (t : Str) (tags : GoMap Str) (ht : ':' ∉ t) :
    tagLoop tags (ts₁ ++ t :: ts₂) = tagLoop tags (ts₁ ++ ts₂) := by
  induction ts₁ generalizing tags with
  | nil =>
    simp only [List.nil_append, tagLoop, tagStep_eq, ht, if_false, bind, Except.bind]
  | cons u rest ih =>
    simp only [List.cons_append, tagLoop, bind, Except.bind]
    cases tagStep tags u with
    | error e => rfl
    | ok tags' => exact ih tags'

/-- Claim C15.  A token without a colon is skipped: the loop body returns
the mapping it was given, without failing and without adding a key, and
the string from which one such token is deleted has the same outcome
(the same mapping, or the same failure) as the string itself. -/
theorem extractTags_skips_flag (o c : Char) (body : Str) (ts₁ ts₂ : List Str) (t : Str)
    (hsplit : Split body ' ' = ts₁ ++ t :: ts₂) (ht : ':' ∉ t) :
    (∀ tags, tagStep tags t = .ok tags) ∧
      extractTags (o :: (body ++ [c])) =
        extractTags (o :: (joinTokens (ts₁ ++ ts₂) ++ [c])) := by
  refine ⟨fun tags => by simp [tagStep_eq, ht], ?_⟩
  unfold extractTags
  rw [slice_strip, slice_strip]
  simp only [bind, Except.bind]
  rw [hsplit, tagLoop_skip _ _ _ _ ht]
  by_cases hne : ts₁ ++ ts₂ = []
  · rw [hne]
    rfl
  · rw [Split_joinTokens _ hne]
    intro u hu
    apply Split_no_sep body ' ' u
    rw [hsplit]
    rcases List.mem_append.mp hu with h1 | h2
    · exact List.mem_append_left _ h1
    · exact List.mem_append_right _ (List.mem_cons_of_mem _ h2)

/-- Witness for C15: deleting the bare flag `flag`, or the empty token
between two spaces, changes nothing, also when a later token is malformed. -/
theorem extractTags_skips_flag_witness :
    extractTags "`a:\"1\" flag b:\"2\"`".toList = extractTags "`a:\"1\" b:\"2\"`".toList ∧
      extractTags "`a:\"1\"  b:x`".toList = extractTags "`a:\"1\" b:x`".toList ∧
      extractTags "`flag`".toList = extractTags "``".toList :=
  ⟨(extractTags_skips_flag (Char.ofNat 96) (Char.ofNat 96) "a:\"1\" flag b:\"2\"".toList
      ["a:\"1\"".toList] ["b:\"2\"".toList] "flag".toList (by decide) (by decide)).2,
    (extractTags_skips_flag (Char.ofNat 96) (Char.ofNat 96) "a:\"1\"  b:x".toList
      ["a:\"1\"".toList] ["b:x".toList] [] (by decide) (by decide)).2,
    (extractTags_skips_flag (Char.ofNat 96) (Char.ofNat 96) "flag".toList
      [] [] "flag".toList (by decide) (by decide)).2⟩


/-! ## The order of the scan -/

/-- The effect of the visitor on a node does not depend on the collection:
it aborts, or it keeps the entries, or it stores one record under the name
that the node writes. -/
theorem Visit_uniform (lib : GoLib) (node : Node) :
    (∃ e, ∀ v, Visit lib v node = .error e) ∨
      (∀ v, Visit lib v node = .ok { result := some v.entries }) ∨
      (∃ name c, writes node = some name ∧
        ∀ v, Visit lib v node = .ok { result := some (v.entries.set name c) }) := by
  by_cases hs : ∃ name fields, node = structDecl name fields
  · obtain ⟨name, fields, rfl⟩ := hs
    cases hloop : fieldLoop lib.unicodeLower (none, []) fields with
    | error e =>
      left
      exact ⟨e, fun v => by rw [Visit_struct_eq, hloop]⟩
    | ok st =>
      obtain ⟨cs, ps, hcs, hps⟩ := fieldLoop_ok_forall₂ _ _ _ _ hloop
      right
      cases hl : cs.getLast? with
      | none =>
        left
        intro v
        rw [Visit_of_forall₂ lib v name fields cs ps hcs hps, hl]
      | some c =>
        right
        refine ⟨name, { c with Params := lib.sortSlice lessByName ps }, ?_, ?_⟩
        · obtain ⟨f, hf, _⟩ :=
            forall₂_exists_of_mem_right hcs (List.mem_of_getLast?_eq_some hl)
          have hany : fields.any isCmdField = true :=
            List.any_eq_true.mpr ⟨f, (List.mem_filter.mp hf).1, (List.mem_filter.mp hf).2⟩
          simp only [writes, structDecl, hany, if_true]
        · intro v
          rw [Visit_of_forall₂ lib v name fields cs ps hcs hps, hl]
  · right
    left
    intro v
    exact Visit_other_eq lib v node (fun name fields e => hs ⟨name, fields, e⟩)

theorem sameMap_set (v w : findStructs) (name : Str) (c : cmdData) (h : sameMap v w) :
    sameMap { result := some (v.entries.set name c) }
      { result := some (w.entries.set name c) } := by
  intro k
  simp only [findStructs.entries]
  by_cases hk : k = name
  · subst hk
    rw [GoMap.get?_set_self, GoMap.get?_set_self]
  · rw [GoMap.get?_set_ne _ _ _ _ hk, GoMap.get?_set_ne _ _ _ _ hk]
    exact h k

theorem sameMap_keep (v w : findStructs) (h : sameMap v w) :
    sameMap { result := some v.entries } { result := some w.entries } := by
  intro k
  exact h k

theorem sameMap_set_comm (v w : findStructs) (n₁ n₂ : Str) (c₁ c₂ : cmdData)
    (hne : n₁ ≠ n₂) (h : sameMap v w) :
    sameMap { result := some ((v.entries.set n₁ c₁).set n₂ c₂) }
      { result := some ((w.entries.set n₂ c₂).set n₁ c₁) } := by
  intro k
  simp only [findStructs.entries]
  by_cases hk₂ : k = n₂
  · subst hk₂
    rw [GoMap.get?_set_self, GoMap.get?_set_ne _ _ _ _ (fun e => hne e.symm),
      GoMap.get?_set_self]
  · rw [GoMap.get?_set_ne _ _ _ _ hk₂]
    by_cases hk₁ : k = n₁
    · subst hk₁
      rw [GoMap.get?_set_self, GoMap.get?_set_self]
    · rw [GoMap.get?_set_ne _ _ _ _ hk₁, GoMap.get?_set_ne _ _ _ _ hk₁,
        GoMap.get?_set_ne _ _ _ _ hk₂]
      exact h k

theorem sameOutcome_trans (r₁ r₂ r₃ : Except Panic findStructs)
    (h₁ : sameOutcome r₁ r₂) (h₂ : sameOutcome r₂ r₃) : sameOutcome r₁ r₃ := by
  cases r₁ <;> cases r₂ <;> cases r₃ <;> simp only [sameOutcome] at h₁ h₂ ⊢
  intro k
  rw [h₁ k, h₂ k]

theorem visitAll_congr (lib : GoLib) (nodes : List Node) (v w : findStructs)
    (h : sameMap v w) : sameOutcome (visitAll lib v nodes) (visitAll lib w nodes) := by
  induction nodes generalizing v w with
  | nil => exact h
  | cons n rest ih =>
    simp only [visitAll, bind, Except.bind]
    rcases Visit_uniform lib n with ⟨e, he⟩ | hk | ⟨name, c, _, hc⟩
    · rw [he v, he w]
      trivial
    · rw [hk v, hk w]
      exact ih _ _ (sameMap_keep v w h)
    · rw [hc v, hc w]
      exact ih _ _ (sameMap_set v w name c h)

theorem entries_mk (m : GoMap cmdData) :
    findStructs.entries { result := some m } = m := rfl

theorem visitAll_swap (lib : GoLib) (x y : Node) (rest : List Node) (v w : findStructs)
    (hxy : ∀ n, writes x = some n → writes y ≠ some n) (h : sameMap v w) :
    sameOutcome (visitAll lib v (y :: x :: rest)) (visitAll lib w (x :: y :: rest)) := by
  simp only [visitAll, bind, Except.bind]
  rcases Visit_uniform lib x with ⟨ex, hx⟩ | hx | ⟨nx, cx, hwx, hx⟩ <;>
    rcases Visit_uniform lib y with ⟨ey, hy⟩ | hy | ⟨ny, cy, hwy, hy⟩
  · rw [hy v, hx w]; trivial
  · rw [hy v, hx w]; simp only [hx]; trivial
  · rw [hy v, hx w]; simp only [hx]; trivial
  · rw [hy v, hx w]; simp only [hy]; trivial
  · rw [hy v, hx w]
    simp only [hx, hy, entries_mk]
    exact visitAll_congr lib rest _ _ (sameMap_keep v w h)
  · rw [hy v, hx w]
    simp only [hx, hy, entries_mk]
    exact visitAll_congr lib rest _ _ (sameMap_set v w ny cy h)
  · rw [hy v, hx w]; simp only [hy]; trivial
  · rw [hy v, hx w]
    simp only [hx, hy, entries_mk]
    exact visitAll_congr lib rest _ _ (sameMap_set v w nx cx h)
  · rw [hy v, hx w]
    simp only [hx, hy, entries_mk]
    have hne : ny ≠ nx := fun e => hxy nx hwx (e ▸ hwy)
    exact visitAll_congr lib rest _ _ (sameMap_set_comm v w ny nx cy cx hne h)

theorem visitAll_perm_outcome (lib : GoLib) (nodes nodes' : List Node)
    (hperm : nodes.Perm nodes') (hnames : (nodes.filterMap writes).Nodup)
    (v w : findStructs) (h : sameMap v w) :
    sameOutcome (visitAll lib v nodes) (visitAll lib w nodes') := by
  induction hperm generalizing v w with
  | nil => exact h
  | @cons x l₁ l₂ _ ih =>
    have hnd : (l₁.filterMap writes).Nodup := by
      cases hx : writes x with
      | none => simpa [List.filterMap_cons, hx] using hnames
      | some n =>
        rw [List.filterMap_cons, hx] at hnames
        exact (List.nodup_cons.mp hnames).2
    simp only [visitAll, bind, Except.bind]
    rcases Visit_uniform lib x with ⟨e, he⟩ | hk | ⟨name, c, _, hc⟩
    · rw [he v, he w]
      trivial
    · rw [hk v, hk w]
      exact ih hnd _ _ (sameMap_keep v w h)
    · rw [hc v, hc w]
      exact ih hnd _ _ (sameMap_set v w name c h)
  | swap x y l =>
    apply visitAll_swap lib x y l v w _ h
    intro n hx hy
    rw [List.filterMap_cons, hy, List.filterMap_cons, hx] at hnames
    exact (List.nodup_cons.mp hnames).1 (List.mem_cons_self _ _)
  | @trans l₁ l₂ l₃ h₁₂ _ ih₁ ih₂ =>
    have hnd₂ : (l₂.filterMap writes).Nodup :=
      (List.Perm.nodup_iff (List.Perm.filterMap writes h₁₂)).mp hnames
    exact sameOutcome_trans _ _ _ (ih₁ hnames v v (fun _ => rfl)) (ih₂ hnd₂ v w h)

/-- Counterexample to C11: two declarations of the name `A` with different
command tags; the scan keeps the record of the one visited last, so the two
orders give different collections. -/
theorem visitAll_order_matters :
    clashNodes.Perm clashNodes.reverse ∧
      ∃ v v', visitAll refLib { result := none } clashNodes = .ok v ∧
        visitAll refLib { result := none } clashNodes.reverse = .ok v' ∧
        v.entries.get? "A".toList ≠ v'.entries.get? "A".toList :=
  ⟨(List.reverse_perm clashNodes).symm,
    { result := some [("A".toList, { noParamsCmd with API := "s3".toList })] },
    { result := some [("A".toList, noParamsCmd)] },
    by decide, by decide, by decide⟩

/-- Claim C11, amended.  For a list of nodes in which the struct
declarations that have a command field have pairwise distinct names, and
for every permutation of that list, the scans of the two lists from the
empty collection have the same outcome: if one returns so does the other,
with the same set of names, each bound to the same record; if one aborts
so does the other. -/
theorem visitAll_perm (lib : GoLib) (nodes nodes' : List Node)
    (hperm : nodes.Perm nodes') (hnames : (nodes.filterMap writes).Nodup) :
    (∀ v, visitAll lib { result := none } nodes = .ok v →
        ∃ v', visitAll lib { result := none } nodes' = .ok v' ∧
          ∀ k, v'.entries.get? k = v.entries.get? k) ∧
      (∀ e, visitAll lib { result := none } nodes = .error e →
        ∃ e', visitAll lib { result := none } nodes' = .error e') := by
  have h := visitAll_perm_outcome lib nodes nodes' hperm hnames
    { result := none } { result := none } (fun _ => rfl)
  refine ⟨?_, ?_⟩
  · intro v hv
    rw [hv] at h
    cases hv' : visitAll lib { result := none } nodes' with
    | error e => rw [hv'] at h; exact absurd h (by simp [sameOutcome])
    | ok v' =>
      rw [hv'] at h
      exact ⟨v', rfl, fun k => (h k).symm⟩
  · intro e he
    rw [he] at h
    cases hv' : visitAll lib { result := none } nodes' with
    | error e' => exact ⟨e', rfl⟩
    | ok v' => rw [hv'] at h; exact absurd h (by simp [sameOutcome])

/-- Witness for C11 amended: two declarations of different names, scanned
in both orders. -/
theorem visitAll_perm_witness :
    ∃ v', visitAll refLib { result := none }
        [structDecl "B".toList [{ Tag := some "`awsAPI:\"s3\"`".toList }],
         structDecl "A".toList [{ Tag := some "`awsAPI:\"ec2\"`".toList }]] = .ok v' ∧
      ∀ k, v'.entries.get? k =
        (findStructs.entries { result := some [("A".toList, noParamsCmd),
          ("B".toList, { noParamsCmd with API := "s3".toList })] }).get? k :=
  (visitAll_perm refLib
    [structDecl "A".toList [{ Tag := some "`awsAPI:\"ec2\"`".toList }],
     structDecl "B".toList [{ Tag := some "`awsAPI:\"s3\"`".toList }]]
    [structDecl "B".toList [{ Tag := some "`awsAPI:\"s3\"`".toList }],
     structDecl "A".toList [{ Tag := some "`awsAPI:\"ec2\"`".toList }]]
    (List.Perm.swap _ _ _) (by decide)).1
    { result := some [("A".toList, noParamsCmd),
      ("B".toList, { noParamsCmd with API := "s3".toList })] } (by decide)


/-! ## The action index -/

theorem strLess_strictWeak : StrictWeak strLess where
  irrefl := strLess_irrefl
  trans := strLess_trans
  incomp := strLess_incomp

theorem sortSlice_sortedStrings (lib : GoLib) (l : List Str) :
    sortedStrings (lib.sortSlice strLess l) := by
  unfold sortedStrings
  refine List.Chain'.imp ?_ (lib.sortSlice_sorted strLess strLess_strictWeak l)
  intro a b hab
  exact (strLess_total a b).mp hab

theorem GoMap.get?_map {V W : Type} (f : V → W) (m : GoMap V) (k : Str) :
    GoMap.get? (m.map (fun e => (e.1, f e.2))) k = (m.get? k).map f := by
  induction m with
  | nil => rfl
  | cons e rest ih =>
    obtain ⟨k', v⟩ := e
    by_cases h : k' = k
    · simp [GoMap.get?, h]
    · simp only [List.map_cons, GoMap.get?, h, if_false]
      exact ih

theorem get?_foldl_addEntity (cmds : List (Str × cmdData)) (m : GoMap (List Str)) (a : Str) :
    (cmds.foldl (fun m e => addEntity m e.2) m).get? a =
      if entitiesOf a cmds = [] then m.get? a
      else some ((match m.get? a with
        | some entities => entities
        | none => []) ++ entitiesOf a cmds) := by
  induction cmds generalizing m with
  | nil => simp [entitiesOf]
  | cons e rest ih =>
    rw [List.foldl_cons, ih]
    by_cases ha : e.2.Action = a
    · have hcons : entitiesOf a (e :: rest) = e.2.Entity :: entitiesOf a rest := by
        simp [entitiesOf, ha]
      rw [hcons]
      simp only [addEntity, ha, GoMap.get?_set_self, List.cons_ne_nil, if_false]
      by_cases hr : entitiesOf a rest = []
      · simp [hr]
      · simp [hr]
    · have hcons : entitiesOf a (e :: rest) = entitiesOf a rest := by
        simp [entitiesOf, ha]
      rw [hcons]
      simp only [addEntity, GoMap.get?_set_ne _ _ _ _ (fun h => ha h.symm)]

theorem get?_BuildSupportedActions (lib : GoLib) (cmds : List (Str × cmdData)) (a : Str) :
    (BuildSupportedActions lib cmds).get? a =
      if entitiesOf a cmds = [] then none
      else some (lib.sortSlice strLess (entitiesOf a cmds)) := by
  unfold BuildSupportedActions
  simp only
  rw [GoMap.get?_map, get?_foldl_addEntity]
  by_cases h : entitiesOf a cmds = []
  · simp [h, GoMap.get?]
  · simp [h, GoMap.get?]

/-- Claim C12.  Every entity list in the result of `BuildSupportedActions`
is in ascending lexicographic order, whatever the collection and the order
in which it is enumerated. -/
theorem BuildSupportedActions_sorted (lib : GoLib) (cmds : List (Str × cmdData)) :
    (∀ e ∈ BuildSupportedActions lib cmds, sortedStrings e.2) ∧
      ∀ a entities, (BuildSupportedActions lib cmds).get? a = some entities →
        sortedStrings entities := by
  refine ⟨?_, ?_⟩
  · intro e he
    unfold BuildSupportedActions at he
    obtain ⟨e', _, rfl⟩ := List.mem_map.mp he
    exact sortSlice_sortedStrings lib e'.2
  · intro a entities h
    rw [get?_BuildSupportedActions] at h
    by_cases hnil : entitiesOf a cmds = []
    · simp [hnil] at h
    · simp only [hnil, if_false, Option.some.injEq] at h
      rw [← h]
      exact sortSlice_sortedStrings lib _

/-- Witness for C12: create instance, create bucket and delete instance
give `create: [bucket, instance]` and `delete: [instance]`. -/
theorem BuildSupportedActions_sorted_witness :
    BuildSupportedActions refLib indexCmds =
        [("create".toList, ["bucket".toList, "instance".toList]),
         ("delete".toList, ["instance".toList])] ∧
      sortedStrings ["bucket".toList, "instance".toList] :=
  ⟨by decide,
    (BuildSupportedActions_sorted refLib indexCmds).2 "create".toList
      ["bucket".toList, "instance".toList] (by decide)⟩

theorem GoMap.keys_set_nodup {V : Type} (m : GoMap V) (k : Str) (v : V)
    (h : m.keys.Nodup) : (m.set k v).keys.Nodup := by
  induction m with
  | nil => simp [GoMap.set, GoMap.keys]
  | cons e rest ih =>
    obtain ⟨k', v'⟩ := e
    simp only [GoMap.keys, List.map_cons, List.nodup_cons] at h
    by_cases hk : k' = k
    · subst hk
      simp only [GoMap.set, if_true, GoMap.keys, List.map_cons, List.nodup_cons]
      exact h
    · simp only [GoMap.set, hk, if_false, GoMap.keys, List.map_cons, List.nodup_cons]
      refine ⟨?_, ih h.2⟩
      intro hmem
      rcases GoMap.mem_keys_set rest k k' v hmem with e | hm
      · exact hk e
      · exact h.1 hm

theorem GoMap.mem_keys_iff {V : Type} (m : GoMap V) (k : Str) :
    k ∈ m.keys ↔ ∃ v, m.get? k = some v := by
  induction m with
  | nil => simp [GoMap.keys, GoMap.get?]
  | cons e rest ih =>
    obtain ⟨k', v'⟩ := e
    by_cases hk : k' = k
    · subst hk
      constructor
      · intro _
        exact ⟨v', by simp only [GoMap.get?, if_true]⟩
      · intro _
        exact List.mem_cons_self _ _
    · have hk' : ¬ k = k' := fun e => hk e.symm
      simp only [GoMap.keys, List.map_cons, List.mem_cons, hk', false_or, GoMap.get?, hk,
        if_false]
      exact ih

theorem foldl_addEntity_keys_nodup (cmds : List (Str × cmdData)) (m : GoMap (List Str))
    (h : m.keys.Nodup) : (cmds.foldl (fun m e => addEntity m e.2) m).keys.Nodup := by
  induction cmds generalizing m with
  | nil => exact h
  | cons e rest ih =>
    rw [List.foldl_cons]
    exact ih _ (GoMap.keys_set_nodup _ _ _ h)

theorem totalLength_addEntity (m : GoMap (List Str)) (cmd : cmdData) :
    totalLength (addEntity m cmd) = totalLength m + 1 := by
  unfold addEntity
  generalize cmd.Action = a
  generalize cmd.Entity = x
  induction m with
  | nil => simp [GoMap.get?, GoMap.set, totalLength]
  | cons e rest ih =>
    obtain ⟨k', l⟩ := e
    by_cases hk : k' = a
    · subst hk
      simp only [GoMap.get?, if_true, GoMap.set, totalLength, List.map_cons, List.sum_cons,
        List.length_append, List.length_singleton]
      omega
    · simp only [GoMap.get?, hk, if_false, GoMap.set, totalLength, List.map_cons,
        List.sum_cons] at ih ⊢
      omega

theorem totalLength_foldl (cmds : List (Str × cmdData)) (m : GoMap (List Str)) :
    totalLength (cmds.foldl (fun m e => addEntity m e.2) m) = totalLength m + cmds.length := by
  induction cmds generalizing m with
  | nil => simp
  | cons e rest ih =>
    rw [List.foldl_cons, ih, totalLength_addEntity, List.length_cons]
    omega

theorem count_entitiesOf (a x : Str) (cmds : List (Str × cmdData)) :
    (entitiesOf a cmds).countP (fun y => decide (y = x)) =
      cmds.countP (fun e => decide (e.2.Action = a ∧ e.2.Entity = x)) := by
  induction cmds with
  | nil => rfl
  | cons e rest ih =>
    by_cases ha : e.2.Action = a
    · have hcons : entitiesOf a (e :: rest) = e.2.Entity :: entitiesOf a rest := by
        simp [entitiesOf, ha]
      rw [hcons, List.countP_cons, ih, List.countP_cons]
      by_cases hx : e.2.Entity = x
      · simp [ha, hx]
      · simp [ha, hx]
    · have hcons : entitiesOf a (e :: rest) = entitiesOf a rest := by
        simp [entitiesOf, ha]
      rw [hcons, ih, List.countP_cons]
      simp [ha]

theorem entitiesOf_eq_nil_iff (a : Str) (cmds : List (Str × cmdData)) :
    entitiesOf a cmds = [] ↔ ¬ ∃ e ∈ cmds, e.2.Action = a := by
  unfold entitiesOf
  rw [List.map_eq_nil_iff, List.filter_eq_nil_iff]
  constructor
  · rintro h ⟨e, he, ha⟩
    exact h e he (by rw [decide_eq_true_eq]; exact ha)
  · intro h e he hd
    rw [decide_eq_true_eq] at hd
    exact h ⟨e, he, hd⟩

/-- Claim C13.  `BuildSupportedActions` groups without losing or merging
anything: the keys of the result are pairwise distinct and are exactly the
`Action` values of the commands; under an action the number of
occurrences of an entity is the number of commands with that action and
that entity; and the lengths of the lists add up to the number of
commands. -/
theorem BuildSupportedActions_groups (lib : GoLib) (cmds : List (Str × cmdData)) :
    (BuildSupportedActions lib cmds).keys.Nodup ∧
      (∀ a, a ∈ (BuildSupportedActions lib cmds).keys ↔ ∃ e ∈ cmds, e.2.Action = a) ∧
      (∀ a entities, (BuildSupportedActions lib cmds).get? a = some entities →
        ∀ x, entities.countP (fun y => decide (y = x)) =
          cmds.countP (fun e => decide (e.2.Action = a ∧ e.2.Entity = x))) ∧
      totalLength (BuildSupportedActions lib cmds) = cmds.length := by
  have hkeys : (BuildSupportedActions lib cmds).keys =
      (cmds.foldl (fun m e => addEntity m e.2) []).keys := by
    unfold BuildSupportedActions GoMap.keys
    simp only [List.map_map]
    rfl
  refine ⟨?_, ?_, ?_, ?_⟩
  · rw [hkeys]
    exact foldl_addEntity_keys_nodup cmds [] (by simp [GoMap.keys])
  · intro a
    rw [GoMap.mem_keys_iff, get?_BuildSupportedActions]
    by_cases hnil : entitiesOf a cmds = []
    · have hno := (entitiesOf_eq_nil_iff a cmds).mp hnil
      rw [if_pos hnil]
      constructor
      · rintro ⟨v, hv⟩
        cases hv
      · intro h
        exact absurd h hno
    · have hex : ∃ e ∈ cmds, e.2.Action = a := by
        by_contra hno
        exact hnil ((entitiesOf_eq_nil_iff a cmds).mpr hno)
      rw [if_neg hnil]
      exact ⟨fun _ => hex, fun _ => ⟨_, rfl⟩⟩
  · intro a entities h x
    rw [get?_BuildSupportedActions] at h
    by_cases hnil : entitiesOf a cmds = []
    · simp [hnil] at h
    · simp only [hnil, if_false, Option.some.injEq] at h
      rw [← h, (lib.sortSlice_perm strLess (entitiesOf a cmds)).countP_eq, count_entitiesOf]
  · have hlen : totalLength (BuildSupportedActions lib cmds) =
        totalLength (cmds.foldl (fun m e => addEntity m e.2) []) := by
      unfold BuildSupportedActions totalLength
      simp only [List.map_map]
      congr 1
      apply List.map_congr_left
      intro e _
      exact (lib.sortSlice_perm strLess e.2).length_eq
    rw [hlen, totalLength_foldl]
    simp [totalLength]

/-- Witness for C13: two differently named commands with the same action
and entity give two copies of the entity. -/
theorem BuildSupportedActions_groups_witness :
    BuildSupportedActions refLib
        [("CreateVpc".toList, actionCmd "create" "vpc"),
         ("MakeVpc".toList, actionCmd "create" "vpc")]
      = [("create".toList, ["vpc".toList, "vpc".toList])] ∧
      ["vpc".toList, "vpc".toList].countP (fun y => decide (y = "vpc".toList)) = 2 :=
  ⟨by decide,
    ((BuildSupportedActions_groups refLib
      [("CreateVpc".toList, actionCmd "create" "vpc"),
       ("MakeVpc".toList, actionCmd "create" "vpc")]).2.2.1 "create".toList
      ["vpc".toList, "vpc".toList] (by decide) "vpc".toList).trans (by decide)⟩

theorem sorted_perm_unique (l₁ l₂ : List Str) (hperm : l₁.Perm l₂)
    (h₁ : List.Chain' (fun a b => strLess b a = false) l₁)
    (h₂ : List.Chain' (fun a b => strLess b a = false) l₂) : l₁ = l₂ := by
  have htrans : IsTrans Str (fun a b => strLess b a = false) :=
    ⟨fun a b c hab hbc => strLess_incomp c b a hbc hab⟩
  have hanti : IsAntisymm Str (fun a b => strLess b a = false) := by
    constructor
    intro a b hab hba
    rcases (strLess_total a b).mp hab with e | hlt
    · exact e
    · rw [hlt] at hba
      cases hba
  exact List.eq_of_perm_of_sorted hperm (List.chain'_iff_pairwise.mp h₁)
    (List.chain'_iff_pairwise.mp h₂)

/-- Claim C18.  The result of `BuildSupportedActions` does not depend on
the order in which the collection is enumerated: two enumerations of the
same collection give, for every action, the same entity list, with the same
entities in the same order (or no list for either). -/
theorem BuildSupportedActions_order (lib : GoLib) (cmds cmds' : List (Str × cmdData))
    (hperm : cmds.Perm cmds') (a : Str) :
    (BuildSupportedActions lib cmds).get? a = (BuildSupportedActions lib cmds').get? a := by
  have hents : (entitiesOf a cmds).Perm (entitiesOf a cmds') :=
    (hperm.filter _).map _
  rw [get?_BuildSupportedActions, get?_BuildSupportedActions]
  by_cases hnil : entitiesOf a cmds = []
  · have hnil' : entitiesOf a cmds' = [] := by
      rw [hnil] at hents
      exact List.Perm.eq_nil hents.symm
    simp [hnil, hnil']
  · have hnil' : ¬ entitiesOf a cmds' = [] := by
      intro h
      rw [h] at hents
      exact hnil (List.Perm.eq_nil hents)
    simp only [hnil, hnil', if_false, Option.some.injEq]
    apply sorted_perm_unique
    · exact ((lib.sortSlice_perm strLess _).trans hents).trans
        (lib.sortSlice_perm strLess _).symm
    · exact lib.sortSlice_sorted strLess strLess_strictWeak _
    · exact lib.sortSlice_sorted strLess strLess_strictWeak _

/-- Witness for C18: the collection of the specification enumerated forwards
and backwards gives the same list for `create`. -/
theorem BuildSupportedActions_order_witness :
    (BuildSupportedActions refLib indexCmds).get? "create".toList =
        (BuildSupportedActions refLib indexCmds.reverse).get? "create".toList ∧
      (BuildSupportedActions refLib indexCmds.reverse).get? "create".toList =
        some ["bucket".toList, "instance".toList] :=
  ⟨BuildSupportedActions_order refLib indexCmds indexCmds.reverse
      (List.reverse_perm indexCmds).symm "create".toList,
    by decide⟩


/-! ## The templates -/

theorem concat_append (l₁ l₂ : List Str) : concat (l₁ ++ l₂) = concat l₁ ++ concat l₂ := by
  induction l₁ with
  | nil => rfl
  | cons s rest ih => simp [concat, ih]

theorem HasPrefix_append (sub rest : Str) : HasPrefix (sub ++ rest) sub = true := by
  induction sub with
  | nil => cases rest <;> rfl
  | cons c cs ih => simp [HasPrefix, ih]

theorem Contains_append_right (pre s sub : Str) (h : Contains s sub = true) :
    Contains (pre ++ s) sub = true := by
  induction pre with
  | nil => exact h
  | cons c cs ih => simp [Contains, ih]

theorem Contains_at_start (sub rest : Str) : Contains (sub ++ rest) sub = true := by
  cases hs : sub ++ rest with
  | nil =>
    have : sub = [] := (List.append_eq_nil.mp hs).1
    subst this
    rfl
  | cons c cs =>
    rw [← hs]
    have := HasPrefix_append sub rest
    rw [hs] at this ⊢
    simp [Contains, this]

/-- Consecutive pieces of a text occur in the text. -/
theorem Contains_concat_mid (l₁ mid l₂ : List Str) :
    Contains (concat (l₁ ++ (mid ++ l₂))) (concat mid) = true := by
  rw [concat_append, concat_append]
  exact Contains_append_right _ _ _ (Contains_at_start _ _)

/-- Consecutive pieces of a text, `n` of them from the piece of index `i`
on, occur in the text. -/
theorem Contains_pieces (pieces : List Str) (i n : Nat) :
    Contains (concat pieces) (concat ((pieces.drop i).take n)) = true := by
  have h : pieces = pieces.take i ++ ((pieces.drop i).take n ++ (pieces.drop i).drop n) := by
    rw [List.take_append_drop, List.take_append_drop]
  have := Contains_concat_mid (pieces.take i) ((pieces.drop i).take n) ((pieces.drop i).drop n)
  rw [← h] at this
  exact this

/-- Claim C16.  For every command, the dry-run part of the template
`cmdRuns` gives exactly one of three texts.  With `HasDryRun` and
`GenDryRun`: the whole generated method, from its header to its closing
brace, with the call of `inject`, the input of type `Input` on which
`SetDryRun(true)` is called, the call of `Call` on that input, the
treatment of the error and the returns.  Without `HasDryRun`: the
placeholder, whose body only returns `fakeDryRunId` of the entity.  With
`HasDryRun` and without `GenDryRun`: a line break and a tab only, hence no
method. -/
theorem cmdRunsDryRun_cases (cmdName : Str) (tag : cmdData) :
    (tag.HasDryRun = true → tag.GenDryRun = true →
        cmdRunsDryRun cmdName tag =
          ("\n" ++
            "\t\n" ++
            "\tfunc (cmd *").toList ++
          (cmdName ++
          ((") DryRun(ctx, params map[string]interface\x7b\x7d) (interface\x7b\x7d, error) " ++
            "\x7b\n" ++
            "\t\tif err := cmd.inject(params); err != nil \x7b\n" ++
            "\t\t\treturn nil, fmt.Errorf(\"dry run: cannot set params on command " ++
            "struct: %s\", err)\n" ++
            "\t\t\x7d\n" ++
            "\n" ++
            "\t\tinput := &").toList ++
          (tag.Input ++
          (("\x7b\x7d\n" ++
            "\t\tinput.SetDryRun(true)\n" ++
            "\t\tif err := structInjector(cmd, input, ctx) ; err != nil \x7b\n" ++
            "\t\t\treturn nil, fmt.Errorf(\"dry run: cannot inject in ").toList ++
          (tag.Input ++
          ((": %s\", err)\n" ++
            "\t\t\x7d\n" ++
            "\n" ++
            "\t\tstart := time.Now()\n" ++
            "\t\t_, err := cmd.api.").toList ++
          (tag.Call ++
          (("(input);\n" ++
            "\t\tif awsErr, ok := err.(awserr.Error); ok \x7b\n" ++
            "\t\t\tswitch code := awsErr.Code(); \x7b\n" ++
            "\t\t\tcase code == dryRunOperation, strings.HasSuffix(code, " ++
            "notFound), strings.Contains(awsErr.Message(), \"Invalid IAM " ++
            "Instance Profile name\"):\n" ++
            "\t\t\t\tcmd.logger.ExtraVerbosef(\"dry run: ").toList ++
          (tag.API ++
          (".".toList ++
          (tag.Call ++
          ((" call took %s\", time.Since(start))\n" ++
            "\t\t\t\tcmd.logger.Verbose(\"dry run: ").toList ++
          (tag.Action ++
          (" ".toList ++
          (tag.Entity ++
          ((" ok\")\n" ++
            "\t\t\t\treturn fakeDryRunId(\"").toList ++
          (tag.Entity ++
          (("\"), nil\n" ++
            "\t\t\t\x7d\n" ++
            "\t\t\x7d\n" ++
            "\n" ++
            "\t\treturn nil, fmt.Errorf(\"dry run: %s\", err) \n" ++
            "\t\x7d").toList)))))))))))))))))) ∧
        Contains (cmdRunsDryRun cmdName tag)
          (concat ["\tfunc (cmd *".toList, cmdName,
            (") DryRun(ctx, params map[string]interface\x7b\x7d) " ++
              "(interface\x7b\x7d, error) \x7b\n").toList]) = true ∧
        Contains (cmdRunsDryRun cmdName tag)
          (concat ["\t\tif err := cmd.inject(params); err != nil \x7b\n".toList]) = true ∧
        Contains (cmdRunsDryRun cmdName tag)
          (concat ["\t\tinput := &".toList, tag.Input, "\x7b\x7d\n".toList,
            "\t\tinput.SetDryRun(true)\n".toList]) = true ∧
        Contains (cmdRunsDryRun cmdName tag)
          (concat ["\t\t_, err := cmd.api.".toList, tag.Call, "(input);\n".toList]) = true) ∧
      (tag.HasDryRun = false →
        cmdRunsDryRun cmdName tag =
          "\nfunc (cmd *".toList ++
            (cmdName ++
            ((") DryRun(ctx, params map[string]interface\x7b\x7d) " ++
              "(interface\x7b\x7d, error) \x7b\n\treturn fakeDryRunId(\"").toList ++
            (tag.Entity ++ "\"), nil\n\x7d".toList)))) ∧
      (tag.HasDryRun = true → tag.GenDryRun = false →
        cmdRunsDryRun cmdName tag = "\n\t".toList ∧ isBlank (cmdRunsDryRun cmdName tag)) ∧
      ((tag.HasDryRun = true ∧ tag.GenDryRun = true) ∨ tag.HasDryRun = false ∨
        (tag.HasDryRun = true ∧ tag.GenDryRun = false)) ∧
      ¬ ((tag.HasDryRun = true ∧ tag.GenDryRun = true) ∧ tag.HasDryRun = false) ∧
      ¬ ((tag.HasDryRun = true ∧ tag.GenDryRun = true) ∧
        (tag.HasDryRun = true ∧ tag.GenDryRun = false)) ∧
      ¬ (tag.HasDryRun = false ∧ (tag.HasDryRun = true ∧ tag.GenDryRun = false)) := by
  refine ⟨?_, ?_, ?_, ?_, ?_, ?_, ?_⟩
  · intro hh hg
    have hrun : cmdRunsDryRun cmdName tag = "\n\t".toList ++ dryRunGenerated cmdName tag := by
      simp only [cmdRunsDryRun, hh, hg, if_true]
      rfl
    refine ⟨?_, ?_, ?_, ?_, ?_⟩
    · rw [hrun]
      simp [dryRunGenerated, concat]
    · rw [hrun]
      exact Contains_append_right _ _ _ (Contains_pieces _ 1 3)
    · rw [hrun]
      exact Contains_append_right _ _ _ (Contains_pieces _ 4 1)
    · rw [hrun]
      exact Contains_append_right _ _ _ (Contains_pieces _ 8 4)
    · rw [hrun]
      exact Contains_append_right _ _ _ (Contains_pieces _ 19 3)
  · intro hh
    have hrun : cmdRunsDryRun cmdName tag = dryRunPlaceholder cmdName tag := by
      simp only [cmdRunsDryRun, hh, Bool.false_eq_true, if_false]
    rw [hrun]
    simp [dryRunPlaceholder, concat]
  · intro hh hg
    have h : cmdRunsDryRun cmdName tag = "\n\t".toList := by
      simp only [cmdRunsDryRun, hh, hg, if_true, Bool.false_eq_true, if_false]
      rfl
    refine ⟨h, ?_⟩
    rw [h]
    intro c hc
    revert c
    decide
  · cases tag.HasDryRun <;> cases tag.GenDryRun <;> simp
  · rintro ⟨⟨h, _⟩, h'⟩
    rw [h] at h'
    cases h'
  · rintro ⟨⟨_, h⟩, ⟨_, h'⟩⟩
    rw [h] at h'
    cases h'
  · rintro ⟨h, ⟨h', _⟩⟩
    rw [h] at h'
    cases h'

/-- Witness for C16: `createvpc` has no dry run and gets the placeholder; a
command with a manual dry run gets no method; the command `CreateInstance`
with a generated dry run gets the whole method, on `ec2.RunInstancesInput`
and `RunInstances`. -/
theorem cmdRunsDryRun_cases_witness :
    cmdRunsDryRun "CreateVpc".toList vpcCmd =
        ("\nfunc (cmd *CreateVpc) DryRun(ctx, params map[string]interface\x7b\x7d) " ++
          "(interface\x7b\x7d, error) \x7b\n\treturn fakeDryRunId(\"vpc\"), nil\n\x7d").toList ∧
      cmdRunsDryRun "CreateInstance".toList { runInstances with GenDryRun := false }
        = "\n\t".toList ∧
      cmdRunsDryRun "CreateInstance".toList runInstances =
        ("\n" ++
          "\t\n" ++
          "\tfunc (cmd *CreateInstance) DryRun(ctx, params " ++
          "map[string]interface\x7b\x7d) (interface\x7b\x7d, error) \x7b\n" ++
          "\t\tif err := cmd.inject(params); err != nil \x7b\n" ++
          "\t\t\treturn nil, fmt.Errorf(\"dry run: cannot set params on command " ++
          "struct: %s\", err)\n" ++
          "\t\t\x7d\n" ++
          "\n" ++
          "\t\tinput := &ec2.RunInstancesInput\x7b\x7d\n" ++
          "\t\tinput.SetDryRun(true)\n" ++
          "\t\tif err := structInjector(cmd, input, ctx) ; err != nil \x7b\n" ++
          "\t\t\treturn nil, fmt.Errorf(\"dry run: cannot inject in " ++
          "ec2.RunInstancesInput: %s\", err)\n" ++
          "\t\t\x7d\n" ++
          "\n" ++
          "\t\tstart := time.Now()\n" ++
          "\t\t_, err := cmd.api.RunInstances(input);\n" ++
          "\t\tif awsErr, ok := err.(awserr.Error); ok \x7b\n" ++
          "\t\t\tswitch code := awsErr.Code(); \x7b\n" ++
          "\t\t\tcase code == dryRunOperation, strings.HasSuffix(code, " ++
          "notFound), strings.Contains(awsErr.Message(), \"Invalid IAM " ++
          "Instance Profile name\"):\n" ++
          "\t\t\t\tcmd.logger.ExtraVerbosef(\"dry run: ec2.RunInstances call took " ++
          "%s\", time.Since(start))\n" ++
          "\t\t\t\tcmd.logger.Verbose(\"dry run: create instance ok\")\n" ++
          "\t\t\t\treturn fakeDryRunId(\"instance\"), nil\n" ++
          "\t\t\t\x7d\n" ++
          "\t\t\x7d\n" ++
          "\n" ++
          "\t\treturn nil, fmt.Errorf(\"dry run: %s\", err) \n" ++
          "\t\x7d").toList :=
  ⟨((cmdRunsDryRun_cases "CreateVpc".toList vpcCmd).2.1 (by decide)).trans (by decide),
    ((cmdRunsDryRun_cases "CreateInstance".toList
      { runInstances with GenDryRun := false }).2.2.1 (by decide) (by decide)).1,
    ((cmdRunsDryRun_cases "CreateInstance".toList runInstances).1
      (by decide) (by decide)).1.trans (by decide)⟩

theorem foldl_definitionParams (keep : templateParam → Bool) (params : List templateParam)
    (acc : Str) :
    params.foldl
        (fun out param =>
          if keep param then out ++ concat ["\"".toList, param.Name, "\",".toList] else out)
        acc
      = acc ++ quotedNames ((params.filter keep).map (fun param => param.Name)) := by
  induction params generalizing acc with
  | nil => simp [quotedNames]
  | cons p rest ih =>
    rw [List.foldl_cons, ih]
    by_cases hk : keep p = true
    · simp [hk, concat, quotedNames]
    · simp [hk]

theorem definitionParams_eq (keep : templateParam → Bool) (params : List templateParam) :
    definitionParams keep params =
      quotedNames ((params.filter keep).map (fun param => param.Name)) := by
  unfold definitionParams
  rw [foldl_definitionParams]
  rfl

/-- Claim C17.  For every command, the entry of `AWSTemplatesDefinitions`
that the template `cmdsDefinitions` emits stands under the identifier
`Action` followed by `Entity`; its `RequiredParams` list holds the quoted
names of the parameters with `IsRequired`, in the order of `Params`, and
its `ExtraParams` list those of the other parameters, in the order of
`Params`; every parameter is in exactly one of the two selections. -/
theorem cmdsDefinitionsEntry_params (cmd : cmdData) :
    cmdsDefinitionsEntry cmd =
        definitionHead cmd ++
        "\t\t\tRequiredParams: []string\x7b".toList ++
        quotedNames ((cmd.Params.filter (fun param => param.IsRequired)).map
          (fun param => param.Name)) ++
        " \x7d,\n\t\t\tExtraParams: []string\x7b".toList ++
        quotedNames ((cmd.Params.filter (fun param => !param.IsRequired)).map
          (fun param => param.Name)) ++
        " \x7d,\n\t\t\x7d,".toList ∧
      HasPrefix (definitionHead cmd)
        (concat ["\n\t\"".toList, cmd.Action, cmd.Entity, "\": Definition\x7b\n".toList])
        = true ∧
      (∀ p ∈ cmd.Params,
        (p ∈ cmd.Params.filter (fun param => param.IsRequired) ∧
          p ∉ cmd.Params.filter (fun param => !param.IsRequired)) ∨
        (p ∉ cmd.Params.filter (fun param => param.IsRequired) ∧
          p ∈ cmd.Params.filter (fun param => !param.IsRequired))) ∧
      (cmd.Params.filter (fun param => param.IsRequired)).length +
        (cmd.Params.filter (fun param => !param.IsRequired)).length = cmd.Params.length := by
  refine ⟨?_, ?_, ?_, ?_⟩
  · unfold cmdsDefinitionsEntry
    rw [definitionParams_eq, definitionParams_eq]
    simp [concat]
  · have h : definitionHead cmd =
        concat ["\n\t\"".toList, cmd.Action, cmd.Entity, "\": Definition\x7b\n".toList] ++
          concat ["\t\t\tAction: \"".toList, cmd.Action, "\",\n".toList,
            "\t\t\tEntity: \"".toList, cmd.Entity, "\",\n".toList,
            "\t\t\tApi: \"".toList, cmd.API, "\",\n".toList] := by
      simp [definitionHead, concat]
    rw [h]
    exact HasPrefix_append _ _
  · intro p hp
    cases hr : p.IsRequired with
    | true =>
      left
      refine ⟨List.mem_filter.mpr ⟨hp, hr⟩, ?_⟩
      intro hm
      have := (List.mem_filter.mp hm).2
      rw [hr] at this
      cases this
    | false =>
      right
      refine ⟨?_, List.mem_filter.mpr ⟨hp, by rw [hr]; rfl⟩⟩
      intro hm
      have := (List.mem_filter.mp hm).2
      rw [hr] at this
      cases this
  · induction cmd.Params with
    | nil => rfl
    | cons p rest ih =>
      cases hr : p.IsRequired <;> simp [List.filter_cons, hr] <;> omega

/-- Witness for C17: the required parameter `cidr` of `createvpc` gives
`RequiredParams: []string{"cidr", }` and, with no other parameter, an empty
`ExtraParams`; an optional parameter `tenancy` goes to `ExtraParams`. -/
theorem cmdsDefinitionsEntry_params_witness :
    cmdsDefinitionsEntry { vpcCmd with Params := [cidrParam] } =
        definitionHead vpcCmd ++
        ("\t\t\tRequiredParams: []string\x7b\"cidr\", \x7d,\n" ++
          "\t\t\tExtraParams: []string\x7b \x7d,\n\t\t\x7d,").toList ∧
      definitionHead vpcCmd =
        ("\n\t\"createvpc\": Definition\x7b\n\t\t\tAction: \"create\",\n" ++
          "\t\t\tEntity: \"vpc\",\n\t\t\tApi: \"ec2\",\n").toList ∧
      cmdsDefinitionsEntry vpcWithParams =
        definitionHead vpcCmd ++
        ("\t\t\tRequiredParams: []string\x7b\"cidr\", \x7d,\n" ++
          "\t\t\tExtraParams: []string\x7b\"tenancy\", \x7d,\n\t\t\x7d,").toList :=
  ⟨(cmdsDefinitionsEntry_params { vpcCmd with Params := [cidrParam] }).1.trans (by decide),
    by decide,
    (cmdsDefinitionsEntry_params vpcWithParams).1.trans (by decide)⟩

end Commands
